import Mathlib

/-!
Verification of the background-removal core of icon-whisperer-transparent-magic.

The development shallowly embeds the pixel-level algorithms of
`src/utils/iconBackgroundRemoval.ts`, `src/utils/gimpAlgorithm.ts`,
`src/utils/rembgAlgorithm.ts`, `src/utils/inspyrenetAlgorithm.ts` and the
orchestrator of `src/utils/backgroundRemoval.ts`.

Conventions of the embedding:
* An `ImageData` becomes a `PixelBuffer`: width, height and the RGBA byte list
  (row major, 4 bytes per pixel).  Out-of-range reads use `List.getD _ _ 0`.
* JavaScript `Math.sqrt`-based Euclidean color distances are only ever compared
  against a threshold in the source.  The executable definitions therefore test
  the squared distance against the squared threshold; the lemmas
  `getColorDistance_le_iff` and `lt_sqrt_intCast_iff` prove these tests
  equivalent to the source's comparison of `Real.sqrt` of the squared distance.
* The real-valued quantities themselves (`getColorDistance`, `sobelMagnitude`,
  the icon alpha policy and the InSPyReNet gamma curve) are kept as
  (noncomputable) real functions so theorems can speak about the exact values.
-/

/-- An RGB color triple, each channel a byte-valued natural number. -/
abbrev Color := Nat × Nat × Nat

/-- An `ImageData`-like pixel buffer: dimensions plus the flat RGBA byte list. -/
structure PixelBuffer where
  width : Nat
  height : Nat
  data : List Nat

/-- Read one byte of the RGBA array; JavaScript out-of-range reads are
undefined and never influence the verified paths, we default them to 0. -/
def getByte (buf : PixelBuffer) (i : Nat) : Nat :=
  buf.data.getD i 0

/-- The RGB triple of the pixel at `(x, y)`, reading bytes
`(y * width + x) * 4 + 0/1/2` exactly as the source does. -/
def pixelColor (buf : PixelBuffer) (x y : Nat) : Color :=
  let index := (y * buf.width + x) * 4
  (getByte buf index, getByte buf (index + 1), getByte buf (index + 2))

/-- Squared Euclidean RGB distance between two colors (an integer). -/
def distSq (c1 c2 : Color) : ℤ :=
  ((c1.1 : ℤ) - (c2.1 : ℤ)) ^ 2 + ((c1.2.1 : ℤ) - (c2.2.1 : ℤ)) ^ 2 +
    ((c1.2.2 : ℤ) - (c2.2.2 : ℤ)) ^ 2

/-- `getColorDistance` of the source: the Euclidean RGB distance
`Math.sqrt((r1-r2)**2 + (g1-g2)**2 + (b1-b2)**2)`. -/
noncomputable def getColorDistance (c1 c2 : Color) : ℝ :=
  Real.sqrt ((distSq c1 c2 : ℤ) : ℝ)

lemma distSq_nonneg (c1 c2 : Color) : 0 ≤ distSq c1 c2 := by
  have h1 := sq_nonneg ((c1.1 : ℤ) - (c2.1 : ℤ))
  have h2 := sq_nonneg ((c1.2.1 : ℤ) - (c2.2.1 : ℤ))
  have h3 := sq_nonneg ((c1.2.2 : ℤ) - (c2.2.2 : ℤ))
  unfold distSq
  linarith

lemma distSq_self (c : Color) : distSq c c = 0 := by
  unfold distSq
  ring

/-- The executable tolerance test of the flood fill: the source computes
`getColorDistance(current, target) <= tolerance`; this is the equivalent
squared-distance form (see `getColorDistance_le_iff`). -/
def withinTol (c1 c2 : Color) (tol : ℚ) : Bool :=
  decide (0 ≤ tol ∧ ((distSq c1 c2 : ℤ) : ℚ) ≤ tol ^ 2)

/-- The squared test `withinTol` agrees with the source's comparison of the
real Euclidean distance against the tolerance. -/
lemma getColorDistance_le_iff (c1 c2 : Color) (tol : ℚ) :
    getColorDistance c1 c2 ≤ (tol : ℝ) ↔ withinTol c1 c2 tol = true := by
  unfold getColorDistance withinTol
  rw [Real.sqrt_le_iff, decide_eq_true_iff]
  constructor
  · rintro ⟨h1, h2⟩
    refine ⟨by exact_mod_cast h1, ?_⟩
    have : ((distSq c1 c2 : ℤ) : ℝ) ≤ ((tol : ℝ)) ^ 2 := h2
    rw [show ((tol : ℝ)) ^ 2 = ((tol ^ 2 : ℚ) : ℝ) by push_cast; ring] at this
    exact_mod_cast this
  · rintro ⟨h1, h2⟩
    refine ⟨by exact_mod_cast h1, ?_⟩
    rw [show ((tol : ℝ)) ^ 2 = ((tol ^ 2 : ℚ) : ℝ) by push_cast; ring]
    exact_mod_cast h2

/-- Monotonicity of the tolerance test in the tolerance. -/
lemma withinTol_mono {c1 c2 : Color} {t1 t2 : ℚ} (h : t1 ≤ t2)
    (hw : withinTol c1 c2 t1 = true) : withinTol c1 c2 t2 = true := by
  unfold withinTol at hw ⊢
  rw [decide_eq_true_iff] at hw ⊢
  obtain ⟨h0, hd⟩ := hw
  exact ⟨h0.trans h, hd.trans (pow_le_pow_left₀ h0 h 2)⟩

lemma withinTol_self (c : Color) {tol : ℚ} (h : 0 ≤ tol) :
    withinTol c c tol = true := by
  unfold withinTol
  rw [decide_eq_true_iff]
  refine ⟨h, ?_⟩
  rw [distSq_self]
  push_cast
  positivity

/-! ## ColorSampler (`sampleBackgroundColor` of `iconBackgroundRemoval.ts`) -/

/-- The 8 boundary sample positions of the source: four corners, the top and
bottom edge midpoints, and the left and right edge midpoints. -/
def samplePoints (w h : Nat) : List (Nat × Nat) :=
  [(0, 0), (w - 1, 0), (0, h - 1), (w - 1, h - 1),
   (w / 2, 0), (w / 2, h - 1), (0, h / 2), (w - 1, h / 2)]

/-- The colors read at the 8 boundary sample positions. -/
def boundarySamples (buf : PixelBuffer) : List Color :=
  (samplePoints buf.width buf.height).map (fun p => pixelColor buf p.1 p.2)

/-- One step of the source's `colorCounts` map update: increment the count of
`c` when a bucket for it exists, otherwise append a fresh `(c, 1)` bucket.
JavaScript `Map` iteration preserves insertion order, which the association
list models directly. -/
def bumpCount (counts : List (Color × Nat)) (c : Color) : List (Color × Nat) :=
  if counts.any (fun e => decide (e.1 = c)) then
    counts.map (fun e => if e.1 = c then (e.1, e.2 + 1) else e)
  else counts ++ [(c, 1)]

/-- The full occurrence tally of the sample list, in first-seen bucket order. -/
def tallyColors (samples : List Color) : List (Color × Nat) :=
  samples.foldl bumpCount []

/-- The source's selection loop over `colorCounts`: keep the first bucket whose
count strictly exceeds the running maximum, starting from count 0 and the
white default. -/
def pickMostCommon (counts : List (Color × Nat)) : Color :=
  (counts.foldl (fun acc e => if acc.1 < e.2 then (e.2, e.1) else acc)
    (0, ((255, 255, 255) : Color))).2

/-- `sampleBackgroundColor` of the source: tally the 8 boundary samples by
exact RGB value and return the most frequent one (first seen wins ties). -/
def sampleBackgroundColor (buf : PixelBuffer) : Color :=
  pickMostCommon (tallyColors (boundarySamples buf))

lemma boundarySamples_ne_nil (buf : PixelBuffer) : boundarySamples buf ≠ [] := by
  simp [boundarySamples, samplePoints]

/-- Behaviour of the selection loop of `pickMostCommon`: the final running
maximum bounds every count, and the final color is either the initial default
or comes from a bucket that strictly beats every earlier bucket. -/
lemma pickLoop_spec (counts : List (Color × Nat)) :
    ∀ (m0 : Nat) (bg0 : Color),
    (∀ e ∈ counts,
      e.2 ≤ (counts.foldl (fun acc e => if acc.1 < e.2 then (e.2, e.1) else acc) (m0, bg0)).1) ∧
    m0 ≤ (counts.foldl (fun acc e => if acc.1 < e.2 then (e.2, e.1) else acc) (m0, bg0)).1 ∧
    (counts.foldl (fun acc e => if acc.1 < e.2 then (e.2, e.1) else acc) (m0, bg0) = (m0, bg0) ∨
      ∃ pre e suf, counts = pre ++ e :: suf ∧
        (counts.foldl (fun acc e => if acc.1 < e.2 then (e.2, e.1) else acc) (m0, bg0)).1 = e.2 ∧
        (counts.foldl (fun acc e => if acc.1 < e.2 then (e.2, e.1) else acc) (m0, bg0)).2 = e.1 ∧
        m0 < e.2 ∧ ∀ p ∈ pre, p.2 < e.2) := by
  induction counts with
  | nil => intro m0 bg0; simp
  | cons e rest ih =>
    intro m0 bg0
    by_cases hcase : m0 < e.2
    · have hstep : (List.foldl (fun acc e => if acc.1 < e.2 then (e.2, e.1) else acc) (m0, bg0)
          (e :: rest)) =
          List.foldl (fun acc e => if acc.1 < e.2 then (e.2, e.1) else acc) (e.2, e.1) rest := by
        simp [hcase]
      obtain ⟨hb, hm, hd⟩ := ih e.2 e.1
      refine ⟨?_, ?_, ?_⟩
      · intro x hx
        rcases List.mem_cons.mp hx with hx | hx
        · rw [hstep, hx]; exact hm
        · rw [hstep]; exact hb x hx
      · rw [hstep]; exact le_of_lt (lt_of_lt_of_le hcase hm)
      · rcases hd with hd | ⟨pre, f, suf, hsplit, h1, h2, h3, h4⟩
        · right
          refine ⟨[], e, rest, by simp, ?_, ?_, hcase, by simp⟩
          · rw [hstep, hd]
          · rw [hstep, hd]
        · right
          refine ⟨e :: pre, f, suf, by simp [hsplit], ?_, ?_, lt_trans hcase h3, ?_⟩
          · rw [hstep]; exact h1
          · rw [hstep]; exact h2
          · intro p hp
            rcases List.mem_cons.mp hp with hp | hp
            · rw [hp]; exact h3
            · exact h4 p hp
    · have hstep : (List.foldl (fun acc e => if acc.1 < e.2 then (e.2, e.1) else acc) (m0, bg0)
          (e :: rest)) =
          List.foldl (fun acc e => if acc.1 < e.2 then (e.2, e.1) else acc) (m0, bg0) rest := by
        simp [hcase]
      obtain ⟨hb, hm, hd⟩ := ih m0 bg0
      refine ⟨?_, ?_, ?_⟩
      · intro x hx
        rcases List.mem_cons.mp hx with hx | hx
        · rw [hstep, hx]; exact le_trans (Nat.le_of_not_lt hcase) hm
        · rw [hstep]; exact hb x hx
      · rw [hstep]; exact hm
      · rcases hd with hd | ⟨pre, f, suf, hsplit, h1, h2, h3, h4⟩
        · left; rw [hstep, hd]
        · right
          refine ⟨e :: pre, f, suf, by simp [hsplit], ?_, ?_, h3, ?_⟩
          · rw [hstep]; exact h1
          · rw [hstep]; exact h2
          · intro p hp
            rcases List.mem_cons.mp hp with hp | hp
            · rw [hp]; exact lt_of_le_of_lt (Nat.le_of_not_lt hcase) h3
            · exact h4 p hp

lemma bumpCount_keys_of_mem {acc : List (Color × Nat)} {c : Color}
    (h : acc.any (fun e => decide (e.1 = c)) = true) :
    (bumpCount acc c).map Prod.fst = acc.map Prod.fst := by
  unfold bumpCount
  rw [if_pos h, List.map_map]
  apply List.map_congr_left
  intro e _
  by_cases he : e.1 = c <;> simp [he]

lemma bumpCount_keys_of_not_mem {acc : List (Color × Nat)} {c : Color}
    (h : ¬ acc.any (fun e => decide (e.1 = c)) = true) :
    (bumpCount acc c).map Prod.fst = acc.map Prod.fst ++ [c] := by
  unfold bumpCount
  rw [if_neg h]
  simp


lemma any_key_iff (acc : List (Color × Nat)) (c : Color) :
    acc.any (fun e => decide (e.1 = c)) = true ↔ c ∈ acc.map Prod.fst := by
  simp [List.any_eq_true]

/-- Position of the first occurrence of a color in a sample list (the claim's
"first-seen sample order"). -/
def firstIdx : List Color → Color → Nat
  | [], _ => 0
  | x :: rest, c => if x = c then 0 else firstIdx rest c + 1

lemma firstIdx_cons_self (c : Color) (l : List Color) : firstIdx (c :: l) c = 0 := by
  simp [firstIdx]

lemma firstIdx_lt_length {c : Color} : ∀ {l : List Color}, c ∈ l → firstIdx l c < l.length := by
  intro l
  induction l with
  | nil => intro h; cases h
  | cons x rest ih =>
    intro h
    by_cases hx : x = c
    · simp [firstIdx, hx]
    · rcases List.mem_cons.mp h with h | h
      · exact absurd h.symm hx
      · simp only [firstIdx, if_neg hx, List.length_cons]
        exact Nat.succ_lt_succ (ih h)

lemma firstIdx_append_of_mem {c : Color} :
    ∀ {l1 : List Color}, c ∈ l1 → ∀ (l2 : List Color), firstIdx (l1 ++ l2) c = firstIdx l1 c := by
  intro l1
  induction l1 with
  | nil => intro h; cases h
  | cons x rest ih =>
    intro h l2
    by_cases hx : x = c
    · simp [firstIdx, hx]
    · rcases List.mem_cons.mp h with h | h
      · exact absurd h.symm hx
      · show (if x = c then 0 else firstIdx (rest ++ l2) c + 1) = _
        rw [if_neg hx, ih h l2]
        simp [firstIdx, if_neg hx]

lemma firstIdx_append_of_not_mem {c : Color} :
    ∀ {l1 : List Color}, c ∉ l1 → ∀ (l2 : List Color),
      firstIdx (l1 ++ l2) c = l1.length + firstIdx l2 c := by
  intro l1
  induction l1 with
  | nil => intro _ l2; simp
  | cons x rest ih =>
    intro h l2
    have hx : x ≠ c := fun hh => h (hh ▸ List.mem_cons_self x rest)
    have hr : c ∉ rest := fun hh => h (List.mem_cons_of_mem x hh)
    show (if x = c then 0 else firstIdx (rest ++ l2) c + 1) = _
    rw [if_neg hx, ih hr l2]
    simp only [List.length_cons]
    omega

/-- Occurrence count of a color in a sample list (the claim's
"exact-RGB occurrence count"). -/
def countC : List Color → Color → Nat
  | [], _ => 0
  | x :: rest, c => countC rest c + (if x = c then 1 else 0)

lemma countC_append (c : Color) :
    ∀ (l1 l2 : List Color), countC (l1 ++ l2) c = countC l1 c + countC l2 c := by
  intro l1
  induction l1 with
  | nil => intro l2; simp [countC]
  | cons x rest ih =>
    intro l2
    show countC (rest ++ l2) c + _ = _
    rw [ih l2]
    show _ = countC rest c + _ + countC l2 c
    omega

lemma countC_singleton (b c : Color) : countC [b] c = if b = c then 1 else 0 := by
  simp [countC]

lemma countC_eq_zero_of_not_mem {c : Color} :
    ∀ {l : List Color}, c ∉ l → countC l c = 0 := by
  intro l
  induction l with
  | nil => intro _; rfl
  | cons x rest ih =>
    intro h
    have hx : x ≠ c := fun hh => h (hh ▸ List.mem_cons_self x rest)
    have hr : c ∉ rest := fun hh => h (List.mem_cons_of_mem x hh)
    show countC rest c + (if x = c then 1 else 0) = 0
    rw [ih hr, if_neg hx]

lemma countC_pos_of_mem {c : Color} :
    ∀ {l : List Color}, c ∈ l → 0 < countC l c := by
  intro l
  induction l with
  | nil => intro h; cases h
  | cons x rest ih =>
    intro h
    show 0 < countC rest c + (if x = c then 1 else 0)
    by_cases hx : x = c
    · rw [if_pos hx]; omega
    · rcases List.mem_cons.mp h with hh | hh
      · exact absurd hh.symm hx
      · have := ih hh; omega

/-- Main invariant of `tallyColors`'s fold: after consuming all of `rest` on
top of the already-processed prefix `pre`, the accumulator is a
duplicate-free association list whose buckets carry the exact occurrence
counts of the full sample list, with keys ordered by first occurrence. -/
lemma tally_inv (full : List Color) :
    ∀ (rest pre : List Color) (acc : List (Color × Nat)),
    full = pre ++ rest →
    ((acc.map Prod.fst).Nodup) →
    (∀ e ∈ acc, e.2 = countC pre e.1) →
    (∀ c : Color, c ∈ acc.map Prod.fst ↔ c ∈ pre) →
    ((acc.map Prod.fst).Pairwise (fun a b => firstIdx full a < firstIdx full b)) →
    (((rest.foldl bumpCount acc).map Prod.fst).Nodup ∧
      (∀ e ∈ rest.foldl bumpCount acc, e.2 = countC full e.1) ∧
      (∀ c : Color, c ∈ (rest.foldl bumpCount acc).map Prod.fst ↔ c ∈ full) ∧
      ((rest.foldl bumpCount acc).map Prod.fst).Pairwise
        (fun a b => firstIdx full a < firstIdx full b)) := by
  intro rest
  induction rest with
  | nil =>
    intro pre acc hfull hnd hcnt hmem hpw
    obtain rfl : full = pre := by simpa using hfull
    simp only [List.foldl_nil]
    exact ⟨hnd, hcnt, hmem, hpw⟩
  | cons c rest ih =>
    intro pre acc hfull hnd hcnt hmem hpw
    have hfull2 : full = (pre ++ [c]) ++ rest := by simp [hfull]
    have hfold : (c :: rest).foldl bumpCount acc = rest.foldl bumpCount (bumpCount acc c) := rfl
    rw [hfold]
    by_cases hc : acc.any (fun e => decide (e.1 = c)) = true
    · have hkeys := bumpCount_keys_of_mem hc
      have hcpre : c ∈ pre := (hmem c).mp ((any_key_iff acc c).mp hc)
      refine ih (pre ++ [c]) (bumpCount acc c) hfull2 ?_ ?_ ?_ ?_
      · rw [hkeys]; exact hnd
      · intro e he
        unfold bumpCount at he
        rw [if_pos hc] at he
        obtain ⟨f, hf, hfe⟩ := List.mem_map.mp he
        subst hfe
        by_cases hfc : f.1 = c
        · simp only [if_pos hfc]
          show f.2 + 1 = countC (pre ++ [c]) f.1
          rw [hcnt f hf, hfc, countC_append, countC_singleton, if_pos rfl]
        · simp only [if_neg hfc]
          rw [hcnt f hf, countC_append, countC_singleton,
            if_neg (fun h => hfc h.symm)]
          omega
      · intro x
        rw [hkeys, hmem x]
        simp only [List.mem_append, List.mem_singleton]
        constructor
        · exact fun h => Or.inl h
        · rintro (h | h)
          · exact h
          · rw [h]; exact hcpre
      · rw [hkeys]; exact hpw
    · have hkeys := bumpCount_keys_of_not_mem hc
      have hcpre : c ∉ pre := fun h => hc ((any_key_iff acc c).mpr ((hmem c).mpr h))
      have hidx : ∀ k ∈ acc.map Prod.fst, firstIdx full k < firstIdx full c := by
        intro k hk
        have hkpre : k ∈ pre := (hmem k).mp hk
        have h1 : firstIdx full k = firstIdx pre k := by
          rw [hfull]; exact firstIdx_append_of_mem hkpre _
        have h2 : firstIdx full c = pre.length := by
          rw [hfull, firstIdx_append_of_not_mem hcpre]
          rw [firstIdx_cons_self]
          omega
        rw [h1, h2]
        exact firstIdx_lt_length hkpre
      refine ih (pre ++ [c]) (bumpCount acc c) hfull2 ?_ ?_ ?_ ?_
      · rw [hkeys, List.nodup_append]
        refine ⟨hnd, List.nodup_singleton c, ?_⟩
        intro a ha hb
        rw [List.mem_singleton] at hb
        subst hb
        exact hc ((any_key_iff acc a).mpr ha)
      · intro e he
        unfold bumpCount at he
        rw [if_neg hc] at he
        rcases List.mem_append.mp he with he | he
        · have hne : e.1 ≠ c := by
            intro h
            exact hc ((any_key_iff acc c).mpr (h ▸ List.mem_map_of_mem Prod.fst he))
          rw [hcnt e he, countC_append, countC_singleton, if_neg (fun h => hne h.symm)]
          omega
        · rw [List.mem_singleton] at he
          subst he
          rw [countC_append, countC_singleton, if_pos rfl,
            countC_eq_zero_of_not_mem hcpre]
      · intro x
        rw [hkeys]
        simp only [List.mem_append, List.mem_singleton, hmem x]
      · rw [hkeys, List.pairwise_append]
        refine ⟨hpw, List.pairwise_singleton _ c, ?_⟩
        intro a ha b hb
        rw [List.mem_singleton] at hb
        subst hb
        exact hidx a ha

/-- Full behaviour of the sampling pipeline on any sample list: the picked
color occurs in the list, realizes the maximal occurrence count, and is the
first-seen among the colors realizing it. -/
lemma pickMostCommon_tally_spec (samples : List Color) (hne : samples ≠ []) :
    pickMostCommon (tallyColors samples) ∈ samples ∧
    (∀ c ∈ samples,
      countC samples c ≤ countC samples (pickMostCommon (tallyColors samples))) ∧
    (∀ c ∈ samples,
      countC samples c = countC samples (pickMostCommon (tallyColors samples)) →
      firstIdx samples (pickMostCommon (tallyColors samples)) ≤ firstIdx samples c) := by
  obtain ⟨hnd, hcnt, hmem, hpw⟩ :=
    tally_inv samples samples [] [] (by simp) (by simp) (by simp) (by simp) (by simp)
  set counts := tallyColors samples with hcounts
  have hfold : samples.foldl bumpCount [] = counts := rfl
  rw [hfold] at hnd hcnt hmem hpw
  obtain ⟨hb, hm, hd⟩ := pickLoop_spec counts 0 ((255, 255, 255) : Color)
  set r := counts.foldl (fun acc e => if acc.1 < e.2 then (e.2, e.1) else acc)
    (0, ((255, 255, 255) : Color)) with hr
  have hpick : pickMostCommon counts = r.2 := rfl
  rcases hd with hd | ⟨pre, e, suf, hsplit, h1, h2, h3, h4⟩
  · exfalso
    obtain ⟨c0, hc0⟩ := List.exists_mem_of_ne_nil samples hne
    have hc0k : c0 ∈ counts.map Prod.fst := (hmem c0).mpr hc0
    obtain ⟨e0, he0, he0f⟩ := List.mem_map.mp hc0k
    have : e0.2 ≤ r.1 := hb e0 he0
    rw [hd] at this
    have hpos : 0 < e0.2 := by
      rw [hcnt e0 he0, he0f]
      exact countC_pos_of_mem hc0
    simp at this
    omega
  · have hein : e ∈ counts := by rw [hsplit]; exact List.mem_append_right _ (List.mem_cons_self e suf)
    have hkey : e.1 ∈ samples := (hmem e.1).mp (List.mem_map_of_mem Prod.fst hein)
    have hecount : e.2 = countC samples e.1 := hcnt e hein
    have hbg : pickMostCommon counts = e.1 := by rw [hpick, h2]
    refine ⟨?_, ?_, ?_⟩
    · rw [hbg]; exact hkey
    · intro c hcs
      obtain ⟨ec, hec, hecf⟩ := List.mem_map.mp ((hmem c).mpr hcs)
      have hle : ec.2 ≤ r.1 := hb ec hec
      rw [h1, hecount] at hle
      rw [hbg, ← hecf, ← hcnt ec hec]
      exact hle
    · intro c hcs hceq
      obtain ⟨ec, hec, hecf⟩ := List.mem_map.mp ((hmem c).mpr hcs)
      have hc2 : ec.2 = e.2 := by
        rw [hcnt ec hec, hecf, hecount, hbg] at *
        rw [hceq]
      rw [hbg]
      rw [hsplit] at hec
      rcases List.mem_append.mp hec with hpre | hec
      · exact absurd hc2 (Nat.ne_of_lt (h4 ec hpre))
      · rcases List.mem_cons.mp hec with hec | hsuf
        · rw [hec] at hecf
          rw [← hecf]
        · have hpw2 : (counts.map Prod.fst).Pairwise
              (fun a b => firstIdx samples a < firstIdx samples b) := hpw
          rw [hsplit, List.map_append, List.map_cons, List.pairwise_append] at hpw2
          obtain ⟨_, hp2, _⟩ := hpw2
          rw [List.pairwise_cons] at hp2
          have := hp2.1 ec.1 (List.mem_map_of_mem Prod.fst hsuf)
          rw [hecf] at this
          exact le_of_lt this

/-- C5: the ColorSampler returns one of the 8 boundary samples, namely the
color with the highest exact-RGB occurrence count among them, ties broken by
first-seen sample order. -/
theorem colorSampler_returns_most_common_boundary_sample (buf : PixelBuffer)
    (hw : 1 ≤ buf.width) (hh : 1 ≤ buf.height) :
    sampleBackgroundColor buf ∈ boundarySamples buf ∧
    (∀ c ∈ boundarySamples buf,
      countC (boundarySamples buf) c ≤
        countC (boundarySamples buf) (sampleBackgroundColor buf)) ∧
    (∀ c ∈ boundarySamples buf,
      countC (boundarySamples buf) c =
        countC (boundarySamples buf) (sampleBackgroundColor buf) →
      firstIdx (boundarySamples buf) (sampleBackgroundColor buf) ≤
        firstIdx (boundarySamples buf) c) :=
  pickMostCommon_tally_spec (boundarySamples buf) (boundarySamples_ne_nil buf)

/-- Witness for C5 at a concrete 2×1 buffer. -/
theorem colorSampler_returns_most_common_boundary_sample_witness :
    1 ≤ (PixelBuffer.mk 2 1 [1, 2, 3, 255, 4, 5, 6, 255]).width ∧
    1 ≤ (PixelBuffer.mk 2 1 [1, 2, 3, 255, 4, 5, 6, 255]).height ∧
    sampleBackgroundColor (PixelBuffer.mk 2 1 [1, 2, 3, 255, 4, 5, 6, 255]) ∈
      boundarySamples (PixelBuffer.mk 2 1 [1, 2, 3, 255, 4, 5, 6, 255]) :=
  ⟨by decide, by decide,
    (colorSampler_returns_most_common_boundary_sample
      (PixelBuffer.mk 2 1 [1, 2, 3, 255, 4, 5, 6, 255]) (by decide) (by decide)).1⟩

/-! ## GIMP-style variant (`gimpAlgorithm.ts`) background color selection -/

/-- `getPixelColor` of `gimpAlgorithm.ts`. -/
def getPixelColor (data : List Nat) (x y width : Nat) : Color :=
  let index := (y * width + x) * 4
  (data.getD index 0, data.getD (index + 1) 0, data.getD (index + 2) 0)

/-- The four corner colors sampled by `gimpBackgroundRemoval`. -/
def gimpCornerColors (buf : PixelBuffer) : List Color :=
  [getPixelColor buf.data 0 0 buf.width,
   getPixelColor buf.data (buf.width - 1) 0 buf.width,
   getPixelColor buf.data 0 (buf.height - 1) buf.width,
   getPixelColor buf.data (buf.width - 1) (buf.height - 1) buf.width]

/-- The background color chosen by `gimpBackgroundRemoval`: the source takes
`corners[0]` ("Simplified for this implementation"). -/
def gimpBackgroundColor (buf : PixelBuffer) : Color :=
  (gimpCornerColors buf).headI

/-- C10: the gimp variant's background color is the color of the top-left
pixel, independently of the other three sampled corners. -/
theorem gimpBackgroundColor_is_top_left (buf : PixelBuffer) :
    gimpBackgroundColor buf = getPixelColor buf.data 0 0 buf.width ∧
    ∀ buf2 : PixelBuffer,
      getPixelColor buf2.data 0 0 buf2.width = getPixelColor buf.data 0 0 buf.width →
      gimpBackgroundColor buf2 = gimpBackgroundColor buf := by
  constructor
  · rfl
  · intro buf2 h
    show getPixelColor buf2.data 0 0 buf2.width = getPixelColor buf.data 0 0 buf.width
    exact h

/-- Witness for C10: two 2×2 buffers that differ in all three non-top-left
corners select the same background color. -/
theorem gimpBackgroundColor_is_top_left_witness :
    getPixelColor (PixelBuffer.mk 2 2
        [9, 9, 9, 255, 1, 1, 1, 255, 2, 2, 2, 255, 3, 3, 3, 255]).data 0 0 2 =
      getPixelColor (PixelBuffer.mk 2 2
        [9, 9, 9, 255, 7, 7, 7, 255, 6, 6, 6, 255, 5, 5, 5, 255]).data 0 0 2 ∧
    gimpBackgroundColor (PixelBuffer.mk 2 2
        [9, 9, 9, 255, 1, 1, 1, 255, 2, 2, 2, 255, 3, 3, 3, 255]) =
      gimpBackgroundColor (PixelBuffer.mk 2 2
        [9, 9, 9, 255, 7, 7, 7, 255, 6, 6, 6, 255, 5, 5, 5, 255]) :=
  ⟨by decide,
    (gimpBackgroundColor_is_top_left (PixelBuffer.mk 2 2
        [9, 9, 9, 255, 7, 7, 7, 255, 6, 6, 6, 255, 5, 5, 5, 255])).2
      (PixelBuffer.mk 2 2 [9, 9, 9, 255, 1, 1, 1, 255, 2, 2, 2, 255, 3, 3, 3, 255])
      (by decide)⟩

/-! ## Icon variant alpha policy (`removeIconBackground`, alpha assignment loop) -/

/-- Per-pixel alpha of the icon variant's mask-application loop: background
non-edge pixels become transparent; otherwise colors within tolerance of the
background get the linear fade `(colorDistance / tolerance) * 255` clamped to
`[0, 255]`, and all remaining pixels keep the original alpha byte. -/
noncomputable def iconPixelAlpha (isBackground isEdge : Bool) (current backgroundColor : Color)
    (origAlpha : Nat) (tolerance : ℝ) : ℝ :=
  if isBackground && !isEdge then 0
  else
    if getColorDistance current backgroundColor < tolerance then
      max 0 (min 255 (getColorDistance current backgroundColor / tolerance * 255))
    else (origAlpha : ℝ)

lemma getColorDistance_nonneg (c1 c2 : Color) : 0 ≤ getColorDistance c1 c2 :=
  Real.sqrt_nonneg _

lemma getColorDistance_self (c : Color) : getColorDistance c c = 0 := by
  unfold getColorDistance
  rw [distSq_self]
  simp

/-- C2 counterexample: a non-background, non-edge pixel far from the
background color keeps its original alpha (here 7), not 255 as claimed. -/
theorem iconPixelAlpha_not_255_counterexample :
    iconPixelAlpha false false (0, 0, 0) (255, 255, 255) 7 30 = 7 ∧ (7 : ℝ) ≠ 255 := by
  constructor
  · unfold iconPixelAlpha
    rw [if_neg (by simp)]
    rw [if_neg]
    · simp
    · rw [not_lt]
      unfold getColorDistance
      have hd : distSq ((0, 0, 0) : Color) ((255, 255, 255) : Color) = 195075 := by
        norm_num [distSq]
      rw [hd]
      rw [show ((195075 : ℤ) : ℝ) = (195075 : ℝ) by norm_num]
      rw [Real.le_sqrt' (by norm_num)]
      norm_num
  · norm_num

/-- C2 amended: background non-edge pixels get alpha 0; any other pixel whose
color distance to the background is strictly below the tolerance gets the
linear fade `(colorDistance / tolerance) * 255`; every remaining pixel keeps
its original alpha (not 255). -/
theorem iconPixelAlpha_cases (isBg isEdge : Bool) (current bg : Color)
    (orig : Nat) (tol : ℝ) :
    (isBg = true → isEdge = false →
      iconPixelAlpha isBg isEdge current bg orig tol = 0) ∧
    (¬(isBg = true ∧ isEdge = false) → getColorDistance current bg < tol →
      iconPixelAlpha isBg isEdge current bg orig tol =
        getColorDistance current bg / tol * 255) ∧
    (¬(isBg = true ∧ isEdge = false) → tol ≤ getColorDistance current bg →
      iconPixelAlpha isBg isEdge current bg orig tol = (orig : ℝ)) := by
  have hcond : (isBg && !isEdge) = true ↔ (isBg = true ∧ isEdge = false) := by
    cases isBg <;> cases isEdge <;> simp
  refine ⟨?_, ?_, ?_⟩
  · intro h1 h2
    unfold iconPixelAlpha
    rw [if_pos (hcond.mpr ⟨h1, h2⟩)]
  · intro hn hd
    have hc : (isBg && !isEdge) = false := by
      rcases Bool.eq_false_or_eq_true (isBg && !isEdge) with h | h
      · exact absurd (hcond.mp h) hn
      · exact h
    have h0 : 0 ≤ getColorDistance current bg := getColorDistance_nonneg current bg
    have htol : 0 < tol := lt_of_le_of_lt h0 hd
    have hlt1 : getColorDistance current bg / tol < 1 := (div_lt_one htol).mpr hd
    have hv255 : getColorDistance current bg / tol * 255 ≤ 255 := by nlinarith
    have hv0 : 0 ≤ getColorDistance current bg / tol * 255 := by positivity
    unfold iconPixelAlpha
    rw [if_neg (by rw [hc]; exact Bool.false_ne_true), if_pos hd,
      min_eq_right hv255, max_eq_right hv0]
  · intro hn hd
    have hc : (isBg && !isEdge) = false := by
      rcases Bool.eq_false_or_eq_true (isBg && !isEdge) with h | h
      · exact absurd (hcond.mp h) hn
      · exact h
    unfold iconPixelAlpha
    rw [if_neg (by rw [hc]; exact Bool.false_ne_true), if_neg (not_lt.mpr hd)]

/-- Witness for C2's amended theorem at concrete pixels: a background non-edge
pixel, a near-background pixel (distance 0 fades to alpha 0), and a far
non-background pixel that keeps its original alpha 7. -/
theorem iconPixelAlpha_cases_witness :
    iconPixelAlpha true false (1, 2, 3) (4, 5, 6) 7 30 = 0 ∧
    iconPixelAlpha false false (5, 5, 5) (5, 5, 5) 7 30 = 0 ∧
    iconPixelAlpha false true (0, 0, 0) (255, 255, 255) 7 30 = 7 := by
  refine ⟨?_, ?_, ?_⟩
  · exact (iconPixelAlpha_cases true false (1, 2, 3) (4, 5, 6) 7 30).1 rfl rfl
  · have h := (iconPixelAlpha_cases false false (5, 5, 5) (5, 5, 5) 7 30).2.1
      (by simp) (by rw [getColorDistance_self]; norm_num)
    rw [h, getColorDistance_self]
    norm_num
  · have hge : (30 : ℝ) ≤ getColorDistance (0, 0, 0) (255, 255, 255) := by
      unfold getColorDistance
      have hd : distSq ((0, 0, 0) : Color) ((255, 255, 255) : Color) = 195075 := by
        norm_num [distSq]
      rw [hd, show ((195075 : ℤ) : ℝ) = (195075 : ℝ) by norm_num,
        Real.le_sqrt' (by norm_num)]
      norm_num
    have h := (iconPixelAlpha_cases false true (0, 0, 0) (255, 255, 255) 7 30).2.2
      (by simp) hge
    rw [h]
    norm_num

/-! ## InSPyReNet variant refined alpha policy (`inspyrenetAlgorithm.ts`) -/

/-- JavaScript `Math.round` on reals: round half toward positive infinity. -/
noncomputable def jsRound (x : ℝ) : ℤ :=
  ⌊x + 1 / 2⌋

/-- The per-mask-value alpha of the InSPyReNet variant's refinement loop.  The
source first sets `alpha = round(m * 255)` and then overwrites it in each of
the three exhaustive branches, so only the branches matter: gamma curve
`round(m^0.8 * 255)` in the uncertain mid-range, hard 0 below, hard 255
above. -/
noncomputable def inspyrenetShape (m : ℝ) : ℤ :=
  if 0.05 < m ∧ m < 0.95 then jsRound (m ^ (0.8 : ℝ) * 255)
  else if m ≤ 0.05 then 0
  else 255

/-- The claim's reading of the refined policy, stated by value ranges. -/
noncomputable def refinedPolicySpec (m : ℝ) : ℤ :=
  if m ≤ 0.05 then 0
  else if 0.95 ≤ m then 255
  else jsRound (m ^ (0.8 : ℝ) * 255)

/-- C8: the refined probability-mask policy hard-clamps to 0 at or below 0.05
and to 255 at or above 0.95, applies `round(m^0.8 * 255)` strictly between,
and maps 0 to 0 and 1 to 255. -/
theorem inspyrenetShape_matches_refined_policy :
    (∀ m : ℝ, inspyrenetShape m = refinedPolicySpec m) ∧
    inspyrenetShape 0 = 0 ∧ inspyrenetShape 1 = 255 := by
  have hmain : ∀ m : ℝ, inspyrenetShape m = refinedPolicySpec m := by
    intro m
    unfold inspyrenetShape refinedPolicySpec
    rcases le_or_lt m 0.05 with h1 | h1
    · rw [if_neg (by push_neg; intro h; linarith), if_pos h1, if_pos h1]
    · rcases lt_or_le m 0.95 with h2 | h2
      · rw [if_pos ⟨h1, h2⟩, if_neg (by linarith), if_neg (by linarith)]
      · rw [if_neg (by push_neg; intro _; linarith), if_neg (by linarith),
          if_neg (by linarith), if_pos h2]
  refine ⟨hmain, ?_, ?_⟩
  · rw [hmain 0]
    unfold refinedPolicySpec
    rw [if_pos (by norm_num)]
  · rw [hmain 1]
    unfold refinedPolicySpec
    rw [if_neg (by norm_num), if_pos (by norm_num)]

/-! ## Icon variant edge detection (`detectEdges` of `iconBackgroundRemoval.ts`) -/

/-- The recognized options of the icon variant. -/
structure IconProcessingOptions where
  tolerance : ℚ
  edgeThreshold : ℚ
  smoothing : Bool

/-- `DEFAULT_OPTIONS` of the source. -/
def DEFAULT_OPTIONS : IconProcessingOptions :=
  { tolerance := 30, edgeThreshold := 10, smoothing := true }

/-- The red byte at `(x, y)`; the source's Sobel kernels read only the byte at
`((y * width + x) * 4)`, i.e. the red channel. -/
def redAt (buf : PixelBuffer) (x y : Nat) : ℤ :=
  (getByte buf ((y * buf.width + x) * 4) : ℤ)

/-- Horizontal Sobel response at an interior pixel. -/
def sobelGx (buf : PixelBuffer) (x y : Nat) : ℤ :=
  -(redAt buf (x - 1) (y - 1)) + redAt buf (x + 1) (y - 1)
    - 2 * redAt buf (x - 1) y + 2 * redAt buf (x + 1) y
    - redAt buf (x - 1) (y + 1) + redAt buf (x + 1) (y + 1)

/-- Vertical Sobel response at an interior pixel. -/
def sobelGy (buf : PixelBuffer) (x y : Nat) : ℤ :=
  -(redAt buf (x - 1) (y - 1)) - 2 * redAt buf x (y - 1) - redAt buf (x + 1) (y - 1)
    + redAt buf (x - 1) (y + 1) + 2 * redAt buf x (y + 1) + redAt buf (x + 1) (y + 1)

/-- Squared Sobel gradient magnitude. -/
def sobelSq (buf : PixelBuffer) (x y : Nat) : ℤ :=
  sobelGx buf x y * sobelGx buf x y + sobelGy buf x y * sobelGy buf x y

/-- The source's `Math.sqrt(gx*gx + gy*gy)`. -/
noncomputable def sobelMagnitude (buf : PixelBuffer) (x y : Nat) : ℝ :=
  Real.sqrt ((sobelSq buf x y : ℤ) : ℝ)

/-- The edge flag of `detectEdges` at `(x, y)`: border pixels stay `false`;
interior pixels compare the gradient magnitude against the hard-coded
constant 50 (`magnitude > 50; // Edge threshold` in the source), here in the
equivalent squared form `2500 < gx^2 + gy^2` (see `edgeFlag_iff_magnitude`). -/
def edgeFlag (buf : PixelBuffer) (x y : Nat) : Bool :=
  decide (1 ≤ x ∧ x + 1 < buf.width ∧ 1 ≤ y ∧ y + 1 < buf.height ∧
    2500 < sobelSq buf x y)

/-- `detectEdges` of the source: the boolean edge map over all pixel indices.
The source initializes `edges` to all-false and overwrites interior entries
inside the double loop; the map over indices with the interior guard folded
into `edgeFlag` produces the same array. -/
def detectEdges (buf : PixelBuffer) : List Bool :=
  (List.range (buf.width * buf.height)).map
    (fun i => edgeFlag buf (i % buf.width) (i / buf.width))

/-- The edge map used by `removeIconBackground`: the source calls
`detectEdges(imageData)` without passing the options, so the result does not
depend on `opts.edgeThreshold`. -/
def iconEdges (buf : PixelBuffer) (opts : IconProcessingOptions) : List Bool :=
  detectEdges buf

lemma sq_cast_le_iff (c : Nat) (z : ℤ) (hz : 0 ≤ z) :
    ((c : ℝ) < Real.sqrt (z : ℝ)) ↔ ((c * c : ℤ) < z) := by
  rcases Nat.eq_zero_or_pos c with hc | hc
  · subst hc
    simp only [Nat.cast_zero, Int.cast_zero, zero_mul]
    constructor
    · intro h
      by_contra hle
      push_neg at hle
      have : z = 0 := le_antisymm hle hz
      rw [this] at h
      simp at h
    · intro h
      have : (0 : ℝ) < (z : ℝ) := by exact_mod_cast h
      exact Real.sqrt_pos.mpr this
  · constructor
    · intro h
      have h2 : ((c : ℝ)) ^ 2 < (z : ℝ) :=
        (Real.lt_sqrt (by positivity)).mp h
      have h3 : ((c * c : ℤ) : ℝ) < (z : ℝ) := by push_cast at h2 ⊢; nlinarith
      exact_mod_cast h3
    · intro h
      have h3 : ((c * c : ℤ) : ℝ) < (z : ℝ) := by exact_mod_cast h
      have h2 : ((c : ℝ)) ^ 2 < (z : ℝ) := by push_cast at h3 ⊢; nlinarith
      exact (Real.lt_sqrt (by positivity)).mpr h2

lemma sobelSq_nonneg (buf : PixelBuffer) (x y : Nat) : 0 ≤ sobelSq buf x y := by
  unfold sobelSq
  have h1 := mul_self_nonneg (sobelGx buf x y)
  have h2 := mul_self_nonneg (sobelGy buf x y)
  linarith

lemma getD_range_map {α : Type} (f : Nat → α) (d : α) (n i : Nat) (h : i < n) :
    ((List.range n).map f).getD i d = f i := by
  rw [List.getD_eq_getElem?_getD]
  rw [List.getElem?_map]
  rw [List.getElem?_range h]
  rfl

/-- The squared interior test of `edgeFlag` agrees with the source's
`Math.sqrt(gx*gx+gy*gy) > 50` comparison. -/
lemma edgeFlag_iff_magnitude (buf : PixelBuffer) (x y : Nat)
    (h1 : 1 ≤ x) (h2 : x + 1 < buf.width) (h3 : 1 ≤ y) (h4 : y + 1 < buf.height) :
    edgeFlag buf x y = true ↔ (50 : ℝ) < sobelMagnitude buf x y := by
  unfold edgeFlag sobelMagnitude
  rw [decide_eq_true_iff]
  rw [show ((50 : ℝ)) = ((50 : Nat) : ℝ) by norm_num]
  rw [sq_cast_le_iff 50 (sobelSq buf x y) (sobelSq_nonneg buf x y)]
  constructor
  · rintro ⟨_, _, _, _, h⟩
    exact_mod_cast h
  · intro h
    exact ⟨h1, h2, h3, h4, by exact_mod_cast h⟩

/-- A 3×3 probe image whose red channel is 0 in the left and middle columns
and 10 in the right column: Sobel magnitude 40 at the center. -/
def edgeProbeBuf : PixelBuffer :=
  PixelBuffer.mk 3 3
    [0, 0, 0, 255, 0, 0, 0, 255, 10, 0, 0, 255,
     0, 0, 0, 255, 0, 0, 0, 255, 10, 0, 0, 255,
     0, 0, 0, 255, 0, 0, 0, 255, 10, 0, 0, 255]

/-- A 3×3 probe image with red 100 in the right column: Sobel magnitude 400 at
the center, above the hard-coded cutoff 50. -/
def strongEdgeProbeBuf : PixelBuffer :=
  PixelBuffer.mk 3 3
    [0, 0, 0, 255, 0, 0, 0, 255, 100, 0, 0, 255,
     0, 0, 0, 255, 0, 0, 0, 255, 100, 0, 0, 255,
     0, 0, 0, 255, 0, 0, 0, 255, 100, 0, 0, 255]

/-- C3 counterexample: at the center of `edgeProbeBuf` the Sobel magnitude is
40, strictly above the supplied/default `edgeThreshold` of 10, yet the edge
map does not flag the pixel — the option is ignored in favor of the
hard-coded cutoff 50. -/
theorem edgeThreshold_option_counterexample :
    (DEFAULT_OPTIONS.edgeThreshold : ℝ) < sobelMagnitude edgeProbeBuf 1 1 ∧
    (iconEdges edgeProbeBuf DEFAULT_OPTIONS).getD (1 * 3 + 1) false = false := by
  constructor
  · have hsq : sobelSq edgeProbeBuf 1 1 = 1600 := by decide
    have hmag : sobelMagnitude edgeProbeBuf 1 1 = 40 := by
      unfold sobelMagnitude
      rw [hsq]
      rw [show (((1600 : ℤ)) : ℝ) = (40 : ℝ) ^ 2 by norm_num]
      exact Real.sqrt_sq (by norm_num)
    rw [hmag]
    norm_num [DEFAULT_OPTIONS]
  · decide

/-- C3 amended: the icon variant's edge flags are identical for any two option
records (the `edgeThreshold` option is ignored), and an interior pixel is
flagged if and only if its Sobel gradient magnitude exceeds the hard-coded
constant 50. -/
theorem iconEdges_use_fixed_cutoff (buf : PixelBuffer)
    (o1 o2 : IconProcessingOptions) (x y : Nat)
    (h1 : 1 ≤ x) (h2 : x + 1 < buf.width) (h3 : 1 ≤ y) (h4 : y + 1 < buf.height) :
    iconEdges buf o1 = iconEdges buf o2 ∧
    ((iconEdges buf o1).getD (y * buf.width + x) false = true ↔
      (50 : ℝ) < sobelMagnitude buf x y) := by
  refine ⟨rfl, ?_⟩
  have hxw : x < buf.width := by omega
  have hyh : y < buf.height := by omega
  have hi : y * buf.width + x < buf.width * buf.height := by
    calc y * buf.width + x < y * buf.width + buf.width := by omega
    _ = (y + 1) * buf.width := by ring
    _ ≤ buf.height * buf.width := Nat.mul_le_mul_right _ (by omega)
    _ = buf.width * buf.height := Nat.mul_comm _ _
  have hgd : (iconEdges buf o1).getD (y * buf.width + x) false =
      edgeFlag buf ((y * buf.width + x) % buf.width) ((y * buf.width + x) / buf.width) := by
    unfold iconEdges detectEdges
    exact getD_range_map _ _ _ _ hi
  have hmod : (y * buf.width + x) % buf.width = x := by
    rw [Nat.mul_comm y buf.width, Nat.mul_add_mod]
    exact Nat.mod_eq_of_lt hxw
  have hdiv : (y * buf.width + x) / buf.width = y := by
    rw [Nat.mul_comm y buf.width, Nat.mul_add_div (by omega)]
    rw [Nat.div_eq_of_lt hxw]
    omega
  rw [hgd, hmod, hdiv]
  exact edgeFlag_iff_magnitude buf x y h1 h2 h3 h4

/-- Witness for C3's amended theorem: the strong probe's center is flagged and
the flag is unchanged under a very different `edgeThreshold`. -/
theorem iconEdges_use_fixed_cutoff_witness :
    iconEdges strongEdgeProbeBuf DEFAULT_OPTIONS =
      iconEdges strongEdgeProbeBuf (IconProcessingOptions.mk 30 10000 true) ∧
    (iconEdges strongEdgeProbeBuf DEFAULT_OPTIONS).getD (1 * 3 + 1) false = true := by
  have h := iconEdges_use_fixed_cutoff strongEdgeProbeBuf DEFAULT_OPTIONS
    (IconProcessingOptions.mk 30 10000 true) 1 1 (by decide) (by decide) (by decide) (by decide)
  refine ⟨h.1, ?_⟩
  have hsq : sobelSq strongEdgeProbeBuf 1 1 = 160000 := by decide
  have hmag : sobelMagnitude strongEdgeProbeBuf 1 1 = 400 := by
    unfold sobelMagnitude
    rw [hsq]
    rw [show (((160000 : ℤ)) : ℝ) = (400 : ℝ) ^ 2 by norm_num]
    exact Real.sqrt_sq (by norm_num)
  have h2 := h.2
  have hidx : 1 * strongEdgeProbeBuf.width + 1 = 1 * 3 + 1 := rfl
  rw [hidx] at h2
  exact h2.mpr (by rw [hmag]; norm_num)

/-! ## RegionGrower (`floodFill` of `iconBackgroundRemoval.ts`) -/

/-- The boolean filled array of a flood fill over `buf`, with its length
pinned to `width * height` (the source allocates `new Array(width*height)`). -/
abbrev FilledArr (buf : PixelBuffer) :=
  { l : List Bool // l.length = buf.width * buf.height }

/-- Linear pixel index `y * width + x` of an integer coordinate pair; the loop
only consults it after the bounds check, where both components are
nonnegative. -/
def pixIdx (buf : PixelBuffer) (p : ℤ × ℤ) : Nat :=
  p.2.toNat * buf.width + p.1.toNat

/-- The color read at an integer coordinate pair. -/
def colorAtI (buf : PixelBuffer) (p : ℤ × ℤ) : Color :=
  pixelColor buf p.1.toNat p.2.toNat

lemma count_false_set_lt :
    ∀ (l : List Bool) (i : Nat), i < l.length → l.getD i false = false →
      (l.set i true).count false < l.count false := by
  intro l
  induction l with
  | nil => intro i h; simp at h
  | cons hd tl ih =>
    intro i hi hv
    cases i with
    | zero =>
      simp only [List.getD_cons_zero] at hv
      subst hv
      simp [List.set, List.count_cons]
    | succ n =>
      simp only [List.getD_cons_succ] at hv
      simp only [List.length_cons, Nat.succ_lt_succ_iff] at hi
      simp only [List.set, List.count_cons]
      have := ih n hi hv
      omega

lemma mul_index_lt {w h a b : Nat} (ha : a < h) (hb : b < w) : a * w + b < w * h := by
  calc a * w + b < a * w + w := by omega
  _ = (a + 1) * w := by ring
  _ ≤ h * w := Nat.mul_le_mul_right _ (by omega)
  _ = w * h := Nat.mul_comm _ _

/-- The worklist loop of `floodFill`.  The source pushes
`[x+1,y],[x-1,y],[x,y+1],[x,y-1]` and pops from the end of the array, so the
head of the modelled stack is the most recently pushed `(x, y-1)`.
Termination: each iteration either pops an entry without filling, or fills a
previously unfilled pixel, so `(number of unfilled pixels, stack length)`
decreases lexicographically. -/
def floodFillLoop (buf : PixelBuffer) (targetColor : Color) (tolerance : ℚ) :
    List (ℤ × ℤ) → FilledArr buf → FilledArr buf
  | [], filled => filled
  | p :: stack, filled =>
    if hskip : p.1 < 0 ∨ (buf.width : ℤ) ≤ p.1 ∨ p.2 < 0 ∨ (buf.height : ℤ) ≤ p.2 ∨
        filled.val.getD (pixIdx buf p) false = true then
      floodFillLoop buf targetColor tolerance stack filled
    else
      if withinTol (colorAtI buf p) targetColor tolerance then
        floodFillLoop buf targetColor tolerance
          ((p.1, p.2 - 1) :: (p.1, p.2 + 1) :: (p.1 - 1, p.2) :: (p.1 + 1, p.2) :: stack)
          ⟨filled.val.set (pixIdx buf p) true, by rw [List.length_set]; exact filled.prop⟩
      else
        floodFillLoop buf targetColor tolerance stack filled
termination_by stack filled => (filled.val.count false, stack.length)
decreasing_by
  · apply Prod.Lex.right
    simp
  · apply Prod.Lex.left
    push_neg at hskip
    obtain ⟨h1, h2, h3, h4, h5⟩ := hskip
    apply count_false_set_lt
    · rw [filled.prop]
      unfold pixIdx
      exact mul_index_lt (by omega) (by omega)
    · simp only [Bool.not_eq_true] at h5
      exact h5
  · apply Prod.Lex.right
    simp

/-- The all-false initial filled array. -/
def initFilled (buf : PixelBuffer) : FilledArr buf :=
  ⟨List.replicate (buf.width * buf.height) false, by simp⟩

/-- `floodFill` of the source: run the worklist loop from the single seed on
the all-false array and return the boolean mask. -/
def floodFill (buf : PixelBuffer) (startX startY : ℤ) (targetColor : Color)
    (tolerance : ℚ) : List Bool :=
  (floodFillLoop buf targetColor tolerance [(startX, startY)] (initFilled buf)).val

/-- Fuel-indexed version of the worklist loop, used to state termination:
`none` means the fuel ran out. -/
def floodFillLoopFuel (buf : PixelBuffer) (targetColor : Color) (tolerance : ℚ) :
    Nat → List (ℤ × ℤ) → FilledArr buf → Option (FilledArr buf)
  | 0, _, _ => none
  | _ + 1, [], filled => some filled
  | n + 1, p :: stack, filled =>
    if p.1 < 0 ∨ (buf.width : ℤ) ≤ p.1 ∨ p.2 < 0 ∨ (buf.height : ℤ) ≤ p.2 ∨
        filled.val.getD (pixIdx buf p) false = true then
      floodFillLoopFuel buf targetColor tolerance n stack filled
    else
      if withinTol (colorAtI buf p) targetColor tolerance then
        floodFillLoopFuel buf targetColor tolerance n
          ((p.1, p.2 - 1) :: (p.1, p.2 + 1) :: (p.1 - 1, p.2) :: (p.1 + 1, p.2) :: stack)
          ⟨filled.val.set (pixIdx buf p) true, by rw [List.length_set]; exact filled.prop⟩
      else
        floodFillLoopFuel buf targetColor tolerance n stack filled

lemma getD_set_true_of_true {l : List Bool} {i j : Nat} (h : l.getD i false = true) :
    (l.set j true).getD i false = true := by
  by_cases hij : i = j
  · subst hij
    by_cases hlen : i < l.length
    · rw [List.getD_eq_getElem?_getD, List.getElem?_set_self (by omega)]
      simp
    · rw [List.getD_eq_getElem?_getD] at h ⊢
      rw [List.getElem?_eq_none (by omega)] at h
      simp at h
  · rw [List.getD_eq_getElem?_getD, List.getElem?_set_ne (fun hh => hij hh.symm)]
    rw [List.getD_eq_getElem?_getD] at h
    exact h

lemma getD_set_ne_false {l : List Bool} {i j : Nat} (hij : i ≠ j) :
    (l.set j true).getD i false = l.getD i false := by
  rw [List.getD_eq_getElem?_getD, List.getElem?_set_ne (fun hh => hij hh.symm),
    ← List.getD_eq_getElem?_getD]

lemma getD_set_self_true {l : List Bool} {i : Nat} (h : i < l.length) :
    (l.set i true).getD i false = true := by
  rw [List.getD_eq_getElem?_getD, List.getElem?_set_self h]
  simp

/-- Filling only grows along the loop. -/
lemma floodFillLoop_grows (buf : PixelBuffer) (targetColor : Color) (tolerance : ℚ)
    (stack : List (ℤ × ℤ)) (filled : FilledArr buf) (i : Nat)
    (h : filled.val.getD i false = true) :
    (floodFillLoop buf targetColor tolerance stack filled).val.getD i false = true := by
  induction stack, filled using floodFillLoop.induct buf targetColor tolerance with
  | case1 filled =>
    rw [floodFillLoop]
    exact h
  | case2 p stack filled hskip ih =>
    rw [floodFillLoop]
    rw [dif_pos hskip]
    exact ih h
  | case3 p stack filled hskip hmatch ih =>
    rw [floodFillLoop]
    rw [dif_neg hskip, if_pos hmatch]
    exact ih (getD_set_true_of_true h)
  | case4 p stack filled hskip hmatch ih =>
    rw [floodFillLoop]
    rw [dif_neg hskip, if_neg hmatch]
    exact ih h

/-- Sufficient fuel exists for every state: the worklist loop terminates. -/
lemma floodFillLoopFuel_exists (buf : PixelBuffer) (targetColor : Color) (tolerance : ℚ)
    (stack : List (ℤ × ℤ)) (filled : FilledArr buf) :
    ∃ n, floodFillLoopFuel buf targetColor tolerance n stack filled =
      some (floodFillLoop buf targetColor tolerance stack filled) := by
  induction stack, filled using floodFillLoop.induct buf targetColor tolerance with
  | case1 filled =>
    exact ⟨1, by rw [floodFillLoop]; rfl⟩
  | case2 p stack filled hskip ih =>
    obtain ⟨n, hn⟩ := ih
    refine ⟨n + 1, ?_⟩
    rw [floodFillLoop, dif_pos hskip, ← hn]
    show (if _ ∨ _ ∨ _ ∨ _ ∨ _ then _ else _) = _
    rw [if_pos hskip]
  | case3 p stack filled hskip hmatch ih =>
    obtain ⟨n, hn⟩ := ih
    refine ⟨n + 1, ?_⟩
    rw [floodFillLoop, dif_neg hskip, if_pos hmatch, ← hn]
    show (if _ ∨ _ ∨ _ ∨ _ ∨ _ then _ else _) = _
    rw [if_neg hskip, if_pos hmatch]
  | case4 p stack filled hskip hmatch ih =>
    obtain ⟨n, hn⟩ := ih
    refine ⟨n + 1, ?_⟩
    rw [floodFillLoop, dif_neg hskip, if_neg hmatch, ← hn]
    show (if _ ∨ _ ∨ _ ∨ _ ∨ _ then _ else _) = _
    rw [if_neg hskip, if_neg hmatch]

/-- If the fuelled loop finishes, it computes exactly the loop's result. -/
lemma floodFillLoopFuel_agrees (buf : PixelBuffer) (targetColor : Color) (tolerance : ℚ) :
    ∀ (n : Nat) (stack : List (ℤ × ℤ)) (filled res : FilledArr buf),
      floodFillLoopFuel buf targetColor tolerance n stack filled = some res →
      floodFillLoop buf targetColor tolerance stack filled = res := by
  intro n
  induction n with
  | zero =>
    intro stack filled res h
    simp [floodFillLoopFuel] at h
  | succ n ih =>
    intro stack filled res h
    cases stack with
    | nil =>
      rw [floodFillLoop]
      simp only [floodFillLoopFuel, Option.some_inj] at h
      exact h
    | cons p stack =>
      by_cases hskip : p.1 < 0 ∨ (buf.width : ℤ) ≤ p.1 ∨ p.2 < 0 ∨ (buf.height : ℤ) ≤ p.2 ∨
          filled.val.getD (pixIdx buf p) false = true
      · rw [floodFillLoop, dif_pos hskip]
        apply ih
        rw [← h]
        show _ = (if _ ∨ _ ∨ _ ∨ _ ∨ _ then _ else _)
        rw [if_pos hskip]
      · by_cases hmatch : withinTol (colorAtI buf p) targetColor tolerance = true
        · rw [floodFillLoop, dif_neg hskip, if_pos hmatch]
          apply ih
          rw [← h]
          show _ = (if _ ∨ _ ∨ _ ∨ _ ∨ _ then _ else _)
          rw [if_neg hskip, if_pos hmatch]
        · rw [floodFillLoop, dif_neg hskip, if_neg (by simpa using hmatch)]
          apply ih
          rw [← h]
          show _ = (if _ ∨ _ ∨ _ ∨ _ ∨ _ then _ else _)
          rw [if_neg hskip, if_neg (by simpa using hmatch)]

/-- Evaluation bridge: a successful fuelled run computes `floodFill`. -/
lemma floodFill_eval {buf : PixelBuffer} {startX startY : ℤ} {targetColor : Color}
    {tolerance : ℚ} {n : Nat} {r : FilledArr buf}
    (h : floodFillLoopFuel buf targetColor tolerance n [(startX, startY)]
      (initFilled buf) = some r) :
    floodFill buf startX startY targetColor tolerance = r.val := by
  unfold floodFill
  rw [floodFillLoopFuel_agrees buf targetColor tolerance n _ _ _ h]

/-- C9: the flood fill's worklist loop terminates for every buffer, seed,
target color and tolerance: some finite fuel suffices for the fuelled loop to
finish, and it then computes exactly `floodFill`'s mask. -/
theorem floodFill_terminates (buf : PixelBuffer) (startX startY : ℤ)
    (targetColor : Color) (tolerance : ℚ) :
    ∃ (n : Nat) (res : FilledArr buf),
      floodFillLoopFuel buf targetColor tolerance n [(startX, startY)]
        (initFilled buf) = some res ∧
      res.val = floodFill buf startX startY targetColor tolerance := by
  obtain ⟨n, hn⟩ := floodFillLoopFuel_exists buf targetColor tolerance
    [(startX, startY)] (initFilled buf)
  exact ⟨n, _, hn, rfl⟩

/-- In-bounds predicate for integer coordinates. -/
def inBoundsP (buf : PixelBuffer) (p : ℤ × ℤ) : Prop :=
  0 ≤ p.1 ∧ p.1 < (buf.width : ℤ) ∧ 0 ≤ p.2 ∧ p.2 < (buf.height : ℤ)

/-- The four 4-connected neighbors pushed by the loop. -/
def neighbors (p : ℤ × ℤ) : List (ℤ × ℤ) :=
  [(p.1 + 1, p.2), (p.1 - 1, p.2), (p.1, p.2 + 1), (p.1, p.2 - 1)]

/-- Reachability from the seed through in-bounds pixels whose color is within
tolerance of the target, along 4-connected steps: the declarative content of
the flood fill. -/
inductive Reach (buf : PixelBuffer) (targetColor : Color) (tolerance : ℚ)
    (seed : ℤ × ℤ) : (ℤ × ℤ) → Prop
  | init : inBoundsP buf seed →
      withinTol (colorAtI buf seed) targetColor tolerance = true →
      Reach buf targetColor tolerance seed seed
  | step {p q : ℤ × ℤ} : Reach buf targetColor tolerance seed p →
      q ∈ neighbors p → inBoundsP buf q →
      withinTol (colorAtI buf q) targetColor tolerance = true →
      Reach buf targetColor tolerance seed q

lemma reach_inBounds {buf : PixelBuffer} {targetColor : Color} {tolerance : ℚ}
    {seed p : ℤ × ℤ} (h : Reach buf targetColor tolerance seed p) :
    inBoundsP buf p := by
  induction h with
  | init h1 _ => exact h1
  | step _ _ hb _ _ => exact hb

lemma reach_mono {buf : PixelBuffer} {targetColor : Color} {t1 t2 : ℚ}
    {seed p : ℤ × ℤ} (ht : t1 ≤ t2) (h : Reach buf targetColor t1 seed p) :
    Reach buf targetColor t2 seed p := by
  induction h with
  | init h1 h2 => exact Reach.init h1 (withinTol_mono ht h2)
  | step _ hq hb hm ih => exact Reach.step ih hq hb (withinTol_mono ht hm)

lemma pixIdx_lt {buf : PixelBuffer} {p : ℤ × ℤ} (h : inBoundsP buf p) :
    pixIdx buf p < buf.width * buf.height := by
  obtain ⟨h1, h2, h3, h4⟩ := h
  unfold pixIdx
  exact mul_index_lt (by omega) (by omega)

lemma pixIdx_inj {buf : PixelBuffer} {p q : ℤ × ℤ}
    (hp : inBoundsP buf p) (hq : inBoundsP buf q)
    (h : pixIdx buf p = pixIdx buf q) : p = q := by
  obtain ⟨hp1, hp2, hp3, hp4⟩ := hp
  obtain ⟨hq1, hq2, hq3, hq4⟩ := hq
  unfold pixIdx at h
  have hxp : p.1.toNat < buf.width := by omega
  have hxq : q.1.toNat < buf.width := by omega
  have hmodp : (p.2.toNat * buf.width + p.1.toNat) % buf.width = p.1.toNat := by
    rw [Nat.mul_comm p.2.toNat buf.width, Nat.mul_add_mod]
    exact Nat.mod_eq_of_lt hxp
  have hmodq : (q.2.toNat * buf.width + q.1.toNat) % buf.width = q.1.toNat := by
    rw [Nat.mul_comm q.2.toNat buf.width, Nat.mul_add_mod]
    exact Nat.mod_eq_of_lt hxq
  have hx : p.1.toNat = q.1.toNat := by
    rw [← hmodp, ← hmodq, h]
  have hy : p.2.toNat = q.2.toNat := by
    have hw : 0 < buf.width := by omega
    have : p.2.toNat * buf.width = q.2.toNat * buf.width := by omega
    exact Nat.eq_of_mul_eq_mul_right hw this
  have hx2 : p.1 = q.1 := by omega
  have hy2 : p.2 = q.2 := by omega
  exact Prod.ext hx2 hy2

/-- Soundness invariant: every filled index comes from a reachable in-bounds
pixel, provided every stack entry is the seed or a neighbor of a filled
pixel. -/
lemma floodFillLoop_sound (buf : PixelBuffer) (targetColor : Color) (tolerance : ℚ)
    (seed : ℤ × ℤ) (stack : List (ℤ × ℤ)) (filled : FilledArr buf) :
    (∀ i : Nat, filled.val.getD i false = true →
      ∃ p, inBoundsP buf p ∧ pixIdx buf p = i ∧ Reach buf targetColor tolerance seed p) →
    (∀ q ∈ stack, q = seed ∨
      ∃ p, inBoundsP buf p ∧ filled.val.getD (pixIdx buf p) false = true ∧
        q ∈ neighbors p) →
    ∀ i : Nat,
      (floodFillLoop buf targetColor tolerance stack filled).val.getD i false = true →
      ∃ p, inBoundsP buf p ∧ pixIdx buf p = i ∧ Reach buf targetColor tolerance seed p := by
  induction stack, filled using floodFillLoop.induct buf targetColor tolerance with
  | case1 filled =>
    intro hfinv _
    rw [floodFillLoop]
    exact hfinv
  | case2 p stack filled hskip ih =>
    intro hfinv hsinv
    rw [floodFillLoop, dif_pos hskip]
    exact ih hfinv (fun q hq => hsinv q (List.mem_cons_of_mem _ hq))
  | case3 p stack filled hskip hmatch ih =>
    intro hfinv hsinv
    rw [floodFillLoop, dif_neg hskip, if_pos hmatch]
    push_neg at hskip
    obtain ⟨h1, h2, h3, h4, h5⟩ := hskip
    have hpin : inBoundsP buf p := ⟨by omega, h2, by omega, h4⟩
    have hreachp : Reach buf targetColor tolerance seed p := by
      rcases hsinv p (List.mem_cons_self _ _) with rfl | ⟨p0, hp0in, hp0f, hpn⟩
      · exact Reach.init hpin hmatch
      · obtain ⟨p1, hp1in, hp1idx, hp1r⟩ := hfinv _ hp0f
        have hpe : p1 = p0 := pixIdx_inj hp1in hp0in hp1idx
        subst hpe
        exact Reach.step hp1r hpn hpin hmatch
    apply ih
    · intro i hi
      by_cases hidx : i = pixIdx buf p
      · exact ⟨p, hpin, hidx.symm, hreachp⟩
      · rw [getD_set_ne_false hidx] at hi
        exact hfinv i hi
    · intro q hq
      have hpfilled : (filled.val.set (pixIdx buf p) true).getD (pixIdx buf p) false = true := by
        apply getD_set_self_true
        rw [filled.prop]
        exact pixIdx_lt hpin
      simp only [List.mem_cons] at hq
      rcases hq with rfl | rfl | rfl | rfl | hq
      · exact Or.inr ⟨p, hpin, hpfilled, by simp [neighbors]⟩
      · exact Or.inr ⟨p, hpin, hpfilled, by simp [neighbors]⟩
      · exact Or.inr ⟨p, hpin, hpfilled, by simp [neighbors]⟩
      · exact Or.inr ⟨p, hpin, hpfilled, by simp [neighbors]⟩
      · rcases hsinv q (List.mem_cons_of_mem _ hq) with h | ⟨p0, hin0, hf0, hn0⟩
        · exact Or.inl h
        · exact Or.inr ⟨p0, hin0, getD_set_true_of_true hf0, hn0⟩
  | case4 p stack filled hskip hmatch ih =>
    intro hfinv hsinv
    rw [floodFillLoop, dif_neg hskip, if_neg hmatch]
    exact ih hfinv (fun q hq => hsinv q (List.mem_cons_of_mem _ hq))

lemma mem_push_of_mem_neighbors {p r : ℤ × ℤ} {stack : List (ℤ × ℤ)}
    (hr : r ∈ neighbors p) :
    r ∈ (p.1, p.2 - 1) :: (p.1, p.2 + 1) :: (p.1 - 1, p.2) :: (p.1 + 1, p.2) :: stack := by
  simp only [neighbors, List.mem_cons, List.not_mem_nil, or_false] at hr
  simp only [List.mem_cons]
  tauto

lemma mem_push_of_mem_stack {p r : ℤ × ℤ} {stack : List (ℤ × ℤ)} (hr : r ∈ stack) :
    r ∈ (p.1, p.2 - 1) :: (p.1, p.2 + 1) :: (p.1 - 1, p.2) :: (p.1 + 1, p.2) :: stack := by
  simp only [List.mem_cons]
  tauto

set_option maxHeartbeats 1000000 in
/-- Completeness invariant: once the worklist empties, the seed (if valid) is
filled and the filled set is closed under valid matching neighbors — given
that every such obligation not yet discharged sits on the stack. -/
lemma floodFillLoop_complete (buf : PixelBuffer) (targetColor : Color) (tolerance : ℚ)
    (seed : ℤ × ℤ) (stack : List (ℤ × ℤ)) (filled : FilledArr buf) :
    ((inBoundsP buf seed ∧ withinTol (colorAtI buf seed) targetColor tolerance = true ∧
      filled.val.getD (pixIdx buf seed) false = false) → seed ∈ stack) →
    (∀ p, inBoundsP buf p → filled.val.getD (pixIdx buf p) false = true →
      ∀ q ∈ neighbors p, inBoundsP buf q →
        withinTol (colorAtI buf q) targetColor tolerance = true →
        filled.val.getD (pixIdx buf q) false = false → q ∈ stack) →
    ((inBoundsP buf seed → withinTol (colorAtI buf seed) targetColor tolerance = true →
      (floodFillLoop buf targetColor tolerance stack filled).val.getD
        (pixIdx buf seed) false = true) ∧
     (∀ p, inBoundsP buf p →
      (floodFillLoop buf targetColor tolerance stack filled).val.getD
        (pixIdx buf p) false = true →
      ∀ q ∈ neighbors p, inBoundsP buf q →
        withinTol (colorAtI buf q) targetColor tolerance = true →
        (floodFillLoop buf targetColor tolerance stack filled).val.getD
          (pixIdx buf q) false = true)) := by
  induction stack, filled using floodFillLoop.induct buf targetColor tolerance with
  | case1 filled =>
    intro hseed hclos
    rw [floodFillLoop]
    constructor
    · intro hin hmt
      rcases Bool.eq_false_or_eq_true (filled.val.getD (pixIdx buf seed) false) with hf | hf
      · exact hf
      · exact absurd (hseed ⟨hin, hmt, hf⟩) (List.not_mem_nil seed)
    · intro p hp hf q hq hqin hqm
      rcases Bool.eq_false_or_eq_true (filled.val.getD (pixIdx buf q) false) with hqf | hqf
      · exact hqf
      · exact absurd (hclos p hp hf q hq hqin hqm hqf) (List.not_mem_nil q)
  | case2 p stack filled hskip ih =>
    intro hseed hclos
    rw [floodFillLoop, dif_pos hskip]
    apply ih
    · rintro ⟨hin, hmt, hff⟩
      rcases List.mem_cons.mp (hseed ⟨hin, hmt, hff⟩) with hsp | h
      · exfalso
        obtain ⟨a, b, c, d⟩ := hin
        subst hsp
        rcases hskip with h | h | h | h | h
        · omega
        · omega
        · omega
        · omega
        · rw [hff] at h; exact Bool.false_ne_true h
      · exact h
    · intro p0 hp0 hf0 q hq hqin hqm hqf
      rcases List.mem_cons.mp (hclos p0 hp0 hf0 q hq hqin hqm hqf) with hqp | h
      · exfalso
        obtain ⟨a, b, c, d⟩ := hqin
        subst hqp
        rcases hskip with h | h | h | h | h
        · omega
        · omega
        · omega
        · omega
        · rw [hqf] at h; exact Bool.false_ne_true h
      · exact h
  | case3 p stack filled hskip hmatch ih =>
    intro hseed hclos
    rw [floodFillLoop, dif_neg hskip, if_pos hmatch]
    push_neg at hskip
    obtain ⟨h1, h2, h3, h4, h5⟩ := hskip
    have hpin : inBoundsP buf p := ⟨by omega, h2, by omega, h4⟩
    have hplen : pixIdx buf p < filled.val.length := by
      rw [filled.prop]; exact pixIdx_lt hpin
    have hpfilled : (filled.val.set (pixIdx buf p) true).getD (pixIdx buf p) false = true :=
      getD_set_self_true hplen
    apply ih
    · rintro ⟨hin, hmt, hff⟩
      have hne : pixIdx buf seed ≠ pixIdx buf p := by
        intro heq
        rw [heq, hpfilled] at hff
        exact Bool.true_eq_false.mp hff
      have hffold : filled.val.getD (pixIdx buf seed) false = false := by
        rw [getD_set_ne_false hne] at hff
        exact hff
      rcases List.mem_cons.mp (hseed ⟨hin, hmt, hffold⟩) with hsp | h
      · exact absurd (by rw [hsp]) hne
      · exact mem_push_of_mem_stack h
    · intro p0 hp0 hf0 q hq hqin hqm hqf
      have hqne : pixIdx buf q ≠ pixIdx buf p := by
        intro heq
        rw [heq, hpfilled] at hqf
        exact Bool.true_eq_false.mp hqf
      have hqfold : filled.val.getD (pixIdx buf q) false = false := by
        rw [getD_set_ne_false hqne] at hqf
        exact hqf
      by_cases hp0p : pixIdx buf p0 = pixIdx buf p
      · have hpe : p0 = p := pixIdx_inj hp0 hpin hp0p
        subst hpe
        exact mem_push_of_mem_neighbors hq
      · have hf0old : filled.val.getD (pixIdx buf p0) false = true := by
          rw [getD_set_ne_false hp0p] at hf0
          exact hf0
        rcases List.mem_cons.mp (hclos p0 hp0 hf0old q hq hqin hqm hqfold) with hqp | h
        · exact absurd (by rw [hqp]) hqne
        · exact mem_push_of_mem_stack h
  | case4 p stack filled hskip hmatch ih =>
    intro hseed hclos
    rw [floodFillLoop, dif_neg hskip, if_neg hmatch]
    apply ih
    · rintro ⟨hin, hmt, hff⟩
      rcases List.mem_cons.mp (hseed ⟨hin, hmt, hff⟩) with hsp | h
      · exact absurd (hsp ▸ hmt) hmatch
      · exact h
    · intro p0 hp0 hf0 q hq hqin hqm hqf
      rcases List.mem_cons.mp (hclos p0 hp0 hf0 q hq hqin hqm hqf) with hqp | h
      · exact absurd (hqp ▸ hqm) hmatch
      · exact h

lemma getD_replicate_false (n i : Nat) : (List.replicate n false).getD i false = false := by
  rw [List.getD_eq_getElem?_getD, List.getElem?_replicate]
  split <;> rfl

/-- Exact characterization of `floodFill`: an index is filled exactly when it
is the index of a pixel reachable from the seed. -/
lemma floodFill_spec (buf : PixelBuffer) (startX startY : ℤ) (targetColor : Color)
    (tolerance : ℚ) :
    (∀ i : Nat, (floodFill buf startX startY targetColor tolerance).getD i false = true →
      ∃ p, inBoundsP buf p ∧ pixIdx buf p = i ∧
        Reach buf targetColor tolerance (startX, startY) p) ∧
    (∀ p, Reach buf targetColor tolerance (startX, startY) p →
      (floodFill buf startX startY targetColor tolerance).getD (pixIdx buf p) false = true) := by
  constructor
  · apply floodFillLoop_sound
    · intro i hi
      rw [show (initFilled buf).val = List.replicate (buf.width * buf.height) false from rfl,
        getD_replicate_false] at hi
      exact absurd hi (Bool.false_ne_true)
    · intro q hq
      rw [List.mem_singleton] at hq
      exact Or.inl hq
  · have hc := floodFillLoop_complete buf targetColor tolerance (startX, startY)
      [(startX, startY)] (initFilled buf)
      (fun _ => List.mem_singleton_self _)
      (fun p0 _ hf0 => by
        rw [show (initFilled buf).val = List.replicate (buf.width * buf.height) false from rfl,
          getD_replicate_false] at hf0
        exact absurd hf0 Bool.false_ne_true)
    intro p hp
    induction hp with
    | init h1 h2 => exact hc.1 h1 h2
    | step hr hq hb hm ih => exact hc.2 _ (reach_inBounds hr) ih _ hq hb hm

/-- C6: the flood fill is monotone in the tolerance — every index filled at
tolerance `t1 ≤ t2` is also filled at tolerance `t2`. -/
theorem floodFill_monotone_in_tolerance (buf : PixelBuffer) (startX startY : ℤ)
    (targetColor : Color) (t1 t2 : ℚ) (ht : t1 ≤ t2) (i : Nat)
    (hi : (floodFill buf startX startY targetColor t1).getD i false = true) :
    (floodFill buf startX startY targetColor t2).getD i false = true := by
  obtain ⟨p, hin, hidx, hr⟩ := (floodFill_spec buf startX startY targetColor t1).1 i hi
  rw [← hidx]
  exact (floodFill_spec buf startX startY targetColor t2).2 p (reach_mono ht hr)

/-- Witness for C6 on a 1×1 black buffer with tolerances 0 ≤ 1. -/
theorem floodFill_monotone_in_tolerance_witness :
    ((0 : ℚ) ≤ 1) ∧
    (floodFill (PixelBuffer.mk 1 1 [0, 0, 0, 255]) 0 0 (0, 0, 0) 1).getD 0 false = true := by
  refine ⟨by norm_num, ?_⟩
  apply floodFill_monotone_in_tolerance (PixelBuffer.mk 1 1 [0, 0, 0, 255]) 0 0 (0, 0, 0)
    0 1 (by norm_num) 0
  have hev : floodFill (PixelBuffer.mk 1 1 [0, 0, 0, 255]) 0 0 (0, 0, 0) 0 = [true] :=
    floodFill_eval (n := 8) (r := ⟨[true], by decide⟩) (by decide)
  rw [hev]
  rfl

/-! ## Corner-seeded mask union of `removeIconBackground` -/

/-- The four corner seeds of `removeIconBackground`. -/
def cornerSeeds (buf : PixelBuffer) : List (ℤ × ℤ) :=
  [(0, 0), ((buf.width : ℤ) - 1, 0), (0, (buf.height : ℤ) - 1),
   ((buf.width : ℤ) - 1, (buf.height : ℤ) - 1)]

/-- The in-place union loop `if (cornerFill[i]) mask[i] = true` over all mask
indices: pointwise boolean or. -/
def combineMask (mask cornerFill : List Bool) : List Bool :=
  (List.range mask.length).map (fun i => mask.getD i false || cornerFill.getD i false)

/-- The icon variant's background mask: union of the four corner flood fills
against the sampled background color. -/
def iconMask (buf : PixelBuffer) (tol : ℚ) : List Bool :=
  (cornerSeeds buf).foldl
    (fun mask s => combineMask mask (floodFill buf s.1 s.2 (sampleBackgroundColor buf) tol))
    (List.replicate (buf.width * buf.height) false)

lemma combineMask_length (m cf : List Bool) : (combineMask m cf).length = m.length := by
  simp [combineMask]

lemma combineMask_getD (m cf : List Bool) (i : Nat) (h : i < m.length) :
    (combineMask m cf).getD i false = (m.getD i false || cf.getD i false) := by
  unfold combineMask
  exact getD_range_map _ _ _ _ h

lemma foldl_combine_keep (f : (ℤ × ℤ) → List Bool) :
    ∀ (seeds : List (ℤ × ℤ)) (m : List Bool) (i : Nat), i < m.length →
      m.getD i false = true →
      (seeds.foldl (fun mk s => combineMask mk (f s)) m).getD i false = true := by
  intro seeds
  induction seeds with
  | nil => intro m i _ h; simpa using h
  | cons s rest ih =>
    intro m i hi h
    rw [List.foldl_cons]
    apply ih
    · rw [combineMask_length]; exact hi
    · rw [combineMask_getD _ _ _ hi, h]
      rfl

lemma inBounds_natCast (buf : PixelBuffer) {x y : Nat}
    (hx : x < buf.width) (hy : y < buf.height) :
    inBoundsP buf ((x : ℤ), (y : ℤ)) := by
  refine ⟨?_, ?_, ?_, ?_⟩
  · show (0 : ℤ) ≤ (x : ℤ)
    positivity
  · show (x : ℤ) < (buf.width : ℤ)
    exact_mod_cast hx
  · show (0 : ℤ) ≤ (y : ℤ)
    positivity
  · show (y : ℤ) < (buf.height : ℤ)
    exact_mod_cast hy

lemma reach_row_uniform (buf : PixelBuffer) (c : Color) (tol : ℚ) (ht : 0 ≤ tol)
    (huni : ∀ x < buf.width, ∀ y < buf.height, pixelColor buf x y = c)
    (hh : 0 < buf.height) :
    ∀ x : Nat, x < buf.width → Reach buf c tol (0, 0) ((x : ℤ), (0 : ℤ)) := by
  intro x
  induction x with
  | zero =>
    intro hx
    apply Reach.init
    · exact inBounds_natCast buf (x := 0) (y := 0) hx hh
    · have : colorAtI buf ((0 : ℤ), (0 : ℤ)) = c := by
        simp only [colorAtI, Int.toNat_zero]
        exact huni 0 hx 0 hh
      rw [this]
      exact withinTol_self c ht
  | succ n ih =>
    intro hx
    have hmem : (((n + 1 : Nat) : ℤ), (0 : ℤ)) ∈ neighbors ((n : ℤ), (0 : ℤ)) := by
      simp only [neighbors, List.mem_cons]
      left
      constructor <;> push_cast <;> ring_nf
    apply Reach.step (ih (by omega)) hmem
    · exact inBounds_natCast buf (x := n + 1) (y := 0) hx hh
    · have : colorAtI buf (((n + 1 : Nat) : ℤ), (0 : ℤ)) = c := by
        simp only [colorAtI, Int.toNat_zero, Int.toNat_natCast]
        exact huni (n + 1) hx 0 hh
      rw [this]
      exact withinTol_self c ht

lemma reach_grid_uniform (buf : PixelBuffer) (c : Color) (tol : ℚ) (ht : 0 ≤ tol)
    (huni : ∀ x < buf.width, ∀ y < buf.height, pixelColor buf x y = c) :
    ∀ y : Nat, y < buf.height → ∀ x : Nat, x < buf.width →
      Reach buf c tol (0, 0) ((x : ℤ), (y : ℤ)) := by
  intro y
  induction y with
  | zero =>
    intro hy x hx
    exact reach_row_uniform buf c tol ht huni hy x hx
  | succ n ih =>
    intro hy x hx
    have hmem : ((x : ℤ), ((n + 1 : Nat) : ℤ)) ∈ neighbors ((x : ℤ), (n : ℤ)) := by
      simp only [neighbors, List.mem_cons]
      right; right; left
      constructor <;> push_cast <;> ring_nf
    apply Reach.step (ih (by omega) x hx) hmem
    · exact inBounds_natCast buf (x := x) (y := n + 1) hx hy
    · have : colorAtI buf ((x : ℤ), ((n + 1 : Nat) : ℤ)) = c := by
        simp only [colorAtI, Int.toNat_natCast]
        exact huni x hx (n + 1) hy
      rw [this]
      exact withinTol_self c ht

lemma sampleBackgroundColor_uniform (buf : PixelBuffer) (c : Color)
    (hw : 1 ≤ buf.width) (hh : 1 ≤ buf.height)
    (huni : ∀ x < buf.width, ∀ y < buf.height, pixelColor buf x y = c) :
    sampleBackgroundColor buf = c := by
  have hall : ∀ s ∈ boundarySamples buf, s = c := by
    intro s hs
    obtain ⟨pt, hpt, hpe⟩ := List.mem_map.mp hs
    have hx1 : buf.width - 1 < buf.width := by omega
    have hx2 : buf.width / 2 < buf.width := Nat.div_lt_self (by omega) (by omega)
    have hy1 : buf.height - 1 < buf.height := by omega
    have hy2 : buf.height / 2 < buf.height := Nat.div_lt_self (by omega) (by omega)
    simp only [samplePoints, List.mem_cons, List.not_mem_nil, or_false] at hpt
    rcases hpt with h | h | h | h | h | h | h | h <;> subst h <;> rw [← hpe] <;>
      first
      | exact huni 0 (by omega) 0 (by omega)
      | exact huni _ hx1 0 (by omega)
      | exact huni 0 (by omega) _ hy1
      | exact huni _ hx1 _ hy1
      | exact huni _ hx2 0 (by omega)
      | exact huni _ hx2 _ hy1
      | exact huni 0 (by omega) _ hy2
      | exact huni _ hx1 _ hy2
  exact hall _ (pickMostCommon_tally_spec (boundarySamples buf) (boundarySamples_ne_nil buf)).1

/-- C7: on a buffer all of whose pixels share one RGB color, the union of the
four corner flood fills against the sampled background color marks every
pixel as background, for any tolerance ≥ 0. -/
theorem uniform_buffer_mask_covers_all (buf : PixelBuffer) (c : Color) (tol : ℚ)
    (hw : 1 ≤ buf.width) (hh : 1 ≤ buf.height) (ht : 0 ≤ tol)
    (huni : ∀ x < buf.width, ∀ y < buf.height, pixelColor buf x y = c) :
    ∀ i < buf.width * buf.height, (iconMask buf tol).getD i false = true := by
  intro i hi
  have hbg : sampleBackgroundColor buf = c := sampleBackgroundColor_uniform buf c hw hh huni
  have hwpos : 0 < buf.width := by omega
  have hxb : i % buf.width < buf.width := Nat.mod_lt _ hwpos
  have hyb : i / buf.width < buf.height := by
    rw [Nat.div_lt_iff_lt_mul hwpos]
    calc i < buf.width * buf.height := hi
    _ = buf.height * buf.width := Nat.mul_comm _ _
  have hreach : Reach buf c tol (0, 0) (((i % buf.width : Nat) : ℤ), ((i / buf.width : Nat) : ℤ)) :=
    reach_grid_uniform buf c tol ht huni _ hyb _ hxb
  have hidx : pixIdx buf (((i % buf.width : Nat) : ℤ), ((i / buf.width : Nat) : ℤ)) = i := by
    unfold pixIdx
    simp only [Int.toNat_natCast]
    rw [Nat.mul_comm]
    exact Nat.div_add_mod i buf.width
  have hfill : (floodFill buf 0 0 c tol).getD i false = true := by
    rw [← hidx]
    exact (floodFill_spec buf 0 0 c tol).2 _ hreach
  unfold iconMask
  rw [hbg]
  rw [cornerSeeds]
  rw [List.foldl_cons]
  apply foldl_combine_keep
  · rw [combineMask_length, List.length_replicate]
    exact hi
  · rw [combineMask_getD _ _ _ (by rw [List.length_replicate]; exact hi)]
    rw [hfill]
    rw [Bool.or_true]

/-- Witness for C7 on a uniform 2×2 buffer with tolerance 0. -/
theorem uniform_buffer_mask_covers_all_witness :
    ((0 : ℚ) ≤ 0) ∧
    (iconMask (PixelBuffer.mk 2 2
      [5, 5, 5, 255, 5, 5, 5, 255, 5, 5, 5, 255, 5, 5, 5, 255]) 0).getD 3 false = true :=
  ⟨le_refl 0,
    uniform_buffer_mask_covers_all
      (PixelBuffer.mk 2 2 [5, 5, 5, 255, 5, 5, 5, 255, 5, 5, 5, 255, 5, 5, 5, 255])
      (5, 5, 5) 0 (by decide) (by decide) (le_refl 0) (by decide) 3 (by decide)⟩

/-! ## Orchestrator (`processImageWithAllAlgorithms` of `backgroundRemoval.ts`) -/

/-- The seven algorithm identifiers of `BackgroundRemovalAlgorithm`. -/
inductive BackgroundRemovalAlgorithm
  | icon
  | ai
  | rembg
  | modnet
  | gimp
  | inkscape
  | inspyrenet
deriving DecidableEq

/-- The fixed request list of the orchestrator's loop. -/
def allAlgorithms : List BackgroundRemovalAlgorithm :=
  [.icon, .ai, .rembg, .modnet, .gimp, .inkscape, .inspyrenet]

/-- The orchestrator loop over one decoded image: `run` abstracts one
execution of `removeBackgroundWithAlgorithm` on that image (`Except.error`
models a thrown error).  Each iteration runs the variant inside try/catch and
pushes the result on success, silently continuing on failure. -/
def processImageWithAllAlgorithms {ε β : Type}
    (run : BackgroundRemovalAlgorithm → Except ε β) :
    List (BackgroundRemovalAlgorithm × β) :=
  allAlgorithms.foldl
    (fun results alg =>
      match run alg with
      | .ok blob => results ++ [(alg, blob)]
      | .error _ => results)
    []

lemma foldl_collect_eq {ε β : Type} (run : BackgroundRemovalAlgorithm → Except ε β) :
    ∀ (l : List BackgroundRemovalAlgorithm) (acc : List (BackgroundRemovalAlgorithm × β)),
      l.foldl
        (fun results alg =>
          match run alg with
          | .ok blob => results ++ [(alg, blob)]
          | .error _ => results) acc =
      acc ++ l.filterMap (fun alg =>
        match run alg with
        | .ok blob => some (alg, blob)
        | .error _ => none) := by
  intro l
  induction l with
  | nil => intro acc; simp
  | cons a rest ih =>
    intro acc
    rw [List.foldl_cons, List.filterMap_cons]
    cases hra : run a with
    | ok blob =>
      simp only [hra]
      rw [ih (acc ++ [(a, blob)])]
      simp
    | error e =>
      simp only [hra]
      exact ih acc

lemma filterMap_fst_eq_filter {ε β : Type} (run : BackgroundRemovalAlgorithm → Except ε β) :
    ∀ (l : List BackgroundRemovalAlgorithm),
      (l.filterMap (fun alg =>
        match run alg with
        | .ok blob => some (alg, blob)
        | .error _ => none)).map Prod.fst =
      l.filter (fun alg => (run alg).toOption.isSome) := by
  intro l
  induction l with
  | nil => rfl
  | cons a rest ih =>
    rw [List.filterMap_cons, List.filter_cons]
    cases hra : run a with
    | ok blob =>
      simp only [hra]
      rw [if_pos (show ((Except.ok blob : Except ε β).toOption.isSome) = true from rfl)]
      rw [List.map_cons]
      exact congrArg (List.cons a) ih
    | error e =>
      simp only [hra]
      rw [if_neg (show ¬ ((Except.error e : Except ε β).toOption.isSome) = true from
        Bool.false_ne_true)]
      exact ih

lemma length_filter_add_length_filter_not {α : Type} (p : α → Bool) :
    ∀ (l : List α), (l.filter p).length + (l.filter (fun a => !p a)).length = l.length := by
  intro l
  induction l with
  | nil => rfl
  | cons a rest ih =>
    rw [List.filter_cons, List.filter_cons]
    cases hpa : p a <;> simp [hpa] <;> omega

/-- C1: the orchestrator is a total function returning one entry per
successful variant — failures are swallowed, order follows the fixed request
list, 2 failures out of the 7 requested leave 5 results, and all failures
leave the empty list (no exception escapes in any case). -/
theorem orchestrator_isolates_failures {ε β : Type}
    (run : BackgroundRemovalAlgorithm → Except ε β) :
    processImageWithAllAlgorithms run =
      allAlgorithms.filterMap (fun alg =>
        match run alg with
        | .ok blob => some (alg, blob)
        | .error _ => none) ∧
    (processImageWithAllAlgorithms run).map Prod.fst =
      allAlgorithms.filter (fun alg => (run alg).toOption.isSome) ∧
    ((allAlgorithms.filter (fun alg => !(run alg).toOption.isSome)).length = 2 →
      (processImageWithAllAlgorithms run).length = 5) ∧
    ((∀ alg, (run alg).toOption.isSome = false) →
      processImageWithAllAlgorithms run = []) := by
  have heq : processImageWithAllAlgorithms run =
      allAlgorithms.filterMap (fun alg =>
        match run alg with
        | .ok blob => some (alg, blob)
        | .error _ => none) := by
    unfold processImageWithAllAlgorithms
    rw [foldl_collect_eq]
    simp
  refine ⟨heq, ?_, ?_, ?_⟩
  · rw [heq]
    exact filterMap_fst_eq_filter run allAlgorithms
  · intro h2
    have hlen : (processImageWithAllAlgorithms run).length =
        (allAlgorithms.filter (fun alg => (run alg).toOption.isSome)).length := by
      rw [← filterMap_fst_eq_filter run allAlgorithms, ← heq, List.length_map]
    rw [hlen]
    have htot := length_filter_add_length_filter_not
      (fun alg => (run alg).toOption.isSome) allAlgorithms
    rw [h2] at htot
    have h7 : allAlgorithms.length = 7 := rfl
    omega
  · intro hall
    rw [heq]
    have : ∀ alg ∈ allAlgorithms, (fun alg =>
        match run alg with
        | .ok blob => some ((alg, blob) : BackgroundRemovalAlgorithm × β)
        | .error _ => none) alg = none := by
      intro alg _
      cases hra : run alg with
      | ok blob =>
        have := hall alg
        rw [hra] at this
        simp [Except.toOption] at this
      | error e => simp [hra]
    exact List.filterMap_eq_nil_iff.mpr this

/-- Witness for C1: a run failing exactly on `rembg` and `gimp` yields 5
results, and a run failing everywhere yields the empty list. -/
theorem orchestrator_isolates_failures_witness :
    (processImageWithAllAlgorithms (fun alg =>
      if alg = BackgroundRemovalAlgorithm.rembg ∨ alg = BackgroundRemovalAlgorithm.gimp
      then (Except.error () : Except Unit Nat) else Except.ok 0)).length = 5 ∧
    processImageWithAllAlgorithms (fun _ =>
      (Except.error () : Except Unit Nat)) = [] := by
  constructor
  · exact (orchestrator_isolates_failures (fun alg =>
      if alg = BackgroundRemovalAlgorithm.rembg ∨ alg = BackgroundRemovalAlgorithm.gimp
      then (Except.error () : Except Unit Nat) else Except.ok 0)).2.2.1 (by decide)
  · exact (orchestrator_isolates_failures (fun _ =>
      (Except.error () : Except Unit Nat))).2.2.2 (fun _ => by decide)

/-! ## ML-variant mask handling (`rembgBackgroundRemoval` of `rembgAlgorithm.ts`) -/

/-- A segmentation mask: the per-pixel float values in row-major order. -/
structure SegMask where
  data : List ℚ
deriving DecidableEq

/-- One item of the segmentation result array; `mask` may be absent. -/
structure SegItem where
  mask : Option SegMask
deriving DecidableEq

/-- The shape of the external service's response as the source's validation
sees it: a falsy/missing value, a non-array value, or an array of items. -/
inductive SegResponse
  | missing
  | nonArray
  | items (l : List SegItem)
deriving DecidableEq

/-- JavaScript `Math.round` on exact rationals. -/
def jsRoundQ (q : ℚ) : ℤ :=
  ⌊q + 1 / 2⌋

/-- A `Uint8ClampedArray` store of an integer alpha: clamp into `[0, 255]`. -/
def clampByte (z : ℤ) : Nat :=
  min z.toNat 255

/-- The mask-application loop
`for i in 0..mask.data.length-1: data[i*4+3] = round(mask.data[i]*255)`. -/
def setAlphaBytes (data : List Nat) (m : List ℚ) : List Nat :=
  (List.range m.length).foldl
    (fun d i => d.set (i * 4 + 3) (clampByte (jsRoundQ (m.getD i 0 * 255)))) data

/-- Applying a mask to a buffer replaces alpha bytes, leaving RGB in place. -/
def rembgApplyMask (buf : PixelBuffer) (mask : SegMask) : PixelBuffer :=
  { buf with data := setAlphaBytes buf.data mask.data }

/-- `rembgBackgroundRemoval`, given the decoded input and the service
response: the guard
`!result || !Array.isArray(result) || result.length === 0 || !result[0].mask`
throws `Invalid segmentation result`; otherwise the first item's mask is
applied and the artifact is produced. -/
def rembgBackgroundRemoval (buf : PixelBuffer) (result : SegResponse) :
    Except String PixelBuffer :=
  match result with
  | .missing => .error "Invalid segmentation result"
  | .nonArray => .error "Invalid segmentation result"
  | .items [] => .error "Invalid segmentation result"
  | .items (item :: _) =>
    match item.mask with
    | none => .error "Invalid segmentation result"
    | some m => .ok (rembgApplyMask buf m)

/-- C4 counterexample: a present mask whose per-pixel data array is empty is
not rejected — the variant completes and returns the buffer unchanged. -/
theorem emptyMaskData_completes_counterexample :
    rembgBackgroundRemoval (PixelBuffer.mk 1 1 [10, 20, 30, 40])
        (SegResponse.items [SegItem.mk (some (SegMask.mk []))]) =
      Except.ok (PixelBuffer.mk 1 1 [10, 20, 30, 40]) ∧
    (rembgBackgroundRemoval (PixelBuffer.mk 1 1 [10, 20, 30, 40])
        (SegResponse.items [SegItem.mk (some (SegMask.mk []))])).isOk = true := by
  constructor
  · rfl
  · rfl

/-- C4 amended: the variant throws exactly on a missing result, a non-array
result, an empty result list, or an absent mask object of the first item; a
present mask with an empty data array is accepted and the output equals the
input buffer with no alpha byte rewritten. -/
theorem rembg_invalid_mask_throws (buf : PixelBuffer) (result : SegResponse) :
    ((rembgBackgroundRemoval buf result).isOk = true ↔
      ∃ (item : SegItem) (rest : List SegItem) (m : SegMask),
        result = SegResponse.items (item :: rest) ∧ item.mask = some m) ∧
    (∀ (rest : List SegItem),
      result = SegResponse.items (SegItem.mk (some (SegMask.mk [])) :: rest) →
      rembgBackgroundRemoval buf result = Except.ok buf) := by
  constructor
  · constructor
    · intro h
      match hres : result with
      | .missing => simp [rembgBackgroundRemoval, Except.isOk, Except.toBool] at h
      | .nonArray => simp [rembgBackgroundRemoval, Except.isOk, Except.toBool] at h
      | .items [] => simp [rembgBackgroundRemoval, Except.isOk, Except.toBool] at h
      | .items (item :: rest) =>
        match hm : item.mask with
        | none => simp [rembgBackgroundRemoval, hm, Except.isOk, Except.toBool] at h
        | some m => exact ⟨item, rest, m, rfl, hm⟩
    · rintro ⟨item, rest, m, rfl, hm⟩
      simp [rembgBackgroundRemoval, hm, Except.isOk, Except.toBool]
  · rintro rest rfl
    show Except.ok (rembgApplyMask buf (SegMask.mk [])) = Except.ok buf
    have : rembgApplyMask buf (SegMask.mk []) = buf := rfl
    rw [this]

/-- Witness for C4's amended theorem at concrete responses. -/
theorem rembg_invalid_mask_throws_witness :
    (rembgBackgroundRemoval (PixelBuffer.mk 1 1 [1, 2, 3, 4])
      SegResponse.missing).isOk = false ∧
    rembgBackgroundRemoval (PixelBuffer.mk 1 1 [1, 2, 3, 4])
        (SegResponse.items [SegItem.mk (some (SegMask.mk [])), SegItem.mk none]) =
      Except.ok (PixelBuffer.mk 1 1 [1, 2, 3, 4]) := by
  constructor
  · have h := (rembg_invalid_mask_throws (PixelBuffer.mk 1 1 [1, 2, 3, 4])
      SegResponse.missing).1
    rcases Bool.eq_false_or_eq_true
      ((rembgBackgroundRemoval (PixelBuffer.mk 1 1 [1, 2, 3, 4])
        SegResponse.missing).isOk) with htr | hfa
    · obtain ⟨item, rest, m, hcontra, _⟩ := h.mp htr
      exact absurd hcontra (fun hh => SegResponse.noConfusion hh)
    · exact hfa
  · exact (rembg_invalid_mask_throws (PixelBuffer.mk 1 1 [1, 2, 3, 4])
      (SegResponse.items [SegItem.mk (some (SegMask.mk [])), SegItem.mk none])).2
      [SegItem.mk none] rfl
